import Mathlib

/-!
A verification development for the core of the `trio` structured-concurrency
runtime (files `trio/_channel.py` and `trio/_core/_run.py`).

The Python source is shallowly embedded: each relevant class becomes a Lean
structure, each method a pure function from the old state to the new state
together with the list of tasks it reschedules (a "wake" is the pair of a
task identifier and the outcome delivered to it).  Python exceptions become
`Except` errors; a failing `assert` statement becomes the distinguished
error `assertionError`.  Tasks and channel endpoints are identified by
natural numbers.  Deadlines (Python floats with both infinities) are
modelled by `WithBot (WithTop ℚ)`.
-/

namespace Trio

/-! ## Memory channel (`trio/_channel.py`) -/

/-- `max_buffer_size`: a natural number or `math.inf`. -/
inductive MaxBuf where
  | fin (n : Nat)
  | inf
deriving DecidableEq, Repr

/-- `len(data) < max_buffer_size` (always true for an infinite buffer). -/
def MaxBuf.ltBuf (k : Nat) : MaxBuf → Bool
  | .fin n => k < n
  | .inf => true

/-- The exceptions (and the failing `assert`) that the channel code can
raise. -/
inductive ChanError where
  | closedResource
  | brokenResource
  | wouldBlock
  | endOfChannel
  | assertionError
deriving DecidableEq, Repr

/-- The outcome delivered to a task by `trio.hazmat.reschedule`:
`Value(v)`, the default `Value(None)`, or `Error(e)`. -/
inductive Wake (α : Type) where
  | val (v : α)
  | unitVal
  | err (e : ChanError)
deriving DecidableEq, Repr

/-- An entry of the ordered map `MemoryChannelState.send_tasks`: the parked
task, the send endpoint it parked on (its `custom_sleep_data`), and the
value it is waiting to hand over. -/
structure SendEntry (α : Type) where
  task : Nat
  ep : Nat
  value : α
deriving DecidableEq, Repr

/-- An entry of the ordered map `MemoryChannelState.receive_tasks`: the
parked task and the receive endpoint it parked on. -/
structure RecvEntry where
  task : Nat
  ep : Nat
deriving DecidableEq, Repr

/-- `MemoryChannelState`: the state shared between all clones of one
channel.  The ordered maps are modelled as lists in insertion order, so
`popitem(last=False)` is the head.  Each endpoint's private `_tasks` set is
recovered by filtering on the `ep` field of the entries. -/
structure MemoryChannelState (α : Type) where
  max_buffer_size : MaxBuf
  data : List α
  open_send_channels : Nat
  open_receive_channels : Nat
  send_tasks : List (SendEntry α)
  receive_tasks : List RecvEntry
deriving DecidableEq, Repr

/-- `MemoryChannelState(max_buffer_size)`: the fresh state built by
`open_memory_channel` before the two endpoints register themselves. -/
def MemoryChannelState.init (α : Type) (mb : MaxBuf) : MemoryChannelState α :=
  { max_buffer_size := mb, data := [], open_send_channels := 0,
    open_receive_channels := 0, send_tasks := [], receive_tasks := [] }

/-- `MemorySendChannel.send_nowait(value)`.  Takes the endpoint's `_closed`
flag and the shared state; returns the new state and the rescheduled tasks,
or the exception raised. -/
def send_nowait {α : Type} (closed : Bool) (st : MemoryChannelState α) (v : α) :
    Except ChanError (MemoryChannelState α × List (Nat × Wake α)) :=
  if closed then .error .closedResource
  else if st.open_receive_channels = 0 then .error .brokenResource
  else
    match st.receive_tasks with
    | r :: rest =>
        -- `assert not self._state.data`
        if st.data.isEmpty then
          .ok ({ st with receive_tasks := rest }, [(r.task, .val v)])
        else .error .assertionError
    | [] =>
        if MaxBuf.ltBuf st.data.length st.max_buffer_size then
          .ok ({ st with data := st.data ++ [v] }, [])
        else .error .wouldBlock

/-- The tail of `MemoryReceiveChannel.receive_nowait()` after the parked
sender (if any) has been unparked: pop the front of the buffer, or raise
`EndOfChannel` / `WouldBlock`.  (The Python code reaches these lines by
falling through.) -/
def receive_fall_through {α : Type} (st : MemoryChannelState α)
    (wakes : List (Nat × Wake α)) :
    Except ChanError (MemoryChannelState α × α × List (Nat × Wake α)) :=
  match st.data with
  | d :: ds => .ok ({ st with data := ds }, d, wakes)
  | [] =>
      if st.open_send_channels = 0 then .error .endOfChannel
      else .error .wouldBlock

/-- `MemoryReceiveChannel.receive_nowait()`.  Returns the new state, the
received value and the rescheduled tasks, or the exception raised. -/
def receive_nowait {α : Type} (closed : Bool) (st : MemoryChannelState α) :
    Except ChanError (MemoryChannelState α × α × List (Nat × Wake α)) :=
  if closed then .error .closedResource
  else
    match st.send_tasks with
    | s :: rest =>
        -- pop the first parked sender, reschedule it with Value(None),
        -- append its value to the buffer, then fall through
        receive_fall_through
          { st with send_tasks := rest, data := st.data ++ [s.value] }
          [(s.task, .unitVal)]
    | [] => receive_fall_through st []

/-- The result of the async `send`/`receive` methods, up to their first
suspension: the operation either completed immediately, parked the calling
task (after `send_nowait`/`receive_nowait` raised `WouldBlock`), or raised. -/
inductive AsyncRes (α β : Type) where
  | completed (st : MemoryChannelState α) (res : β) (wakes : List (Nat × Wake α))
  | parked (st : MemoryChannelState α)
  | errored (e : ChanError)
deriving DecidableEq, Repr

/-- `MemorySendChannel.send(value)` run by task `tid` on endpoint `eid`
(cancellation aside): try `send_nowait`; on `WouldBlock`, park the task in
`send_tasks` (and in the endpoint's `_tasks` set, i.e. tagged with `eid`). -/
def send {α : Type} (closed : Bool) (st : MemoryChannelState α) (v : α)
    (tid eid : Nat) : AsyncRes α Unit :=
  match send_nowait closed st v with
  | .ok (st1, wakes) => .completed st1 () wakes
  | .error .wouldBlock =>
      .parked { st with send_tasks := st.send_tasks ++ [⟨tid, eid, v⟩] }
  | .error e => .errored e

/-- `MemoryReceiveChannel.receive()` run by task `tid` on endpoint `eid`
(cancellation aside): try `receive_nowait`; on `WouldBlock`, park the task
in `receive_tasks`. -/
def receive {α : Type} (closed : Bool) (st : MemoryChannelState α)
    (tid eid : Nat) : AsyncRes α α :=
  match receive_nowait closed st with
  | .ok (st1, v, wakes) => .completed st1 v wakes
  | .error .wouldBlock =>
      .parked { st with receive_tasks := st.receive_tasks ++ [⟨tid, eid⟩] }
  | .error e => .errored e

/-- `MemorySendChannel.clone()`: the new endpoint's `__attrs_post_init__`
increments `open_send_channels`. -/
def cloneSend {α : Type} (closed : Bool) (st : MemoryChannelState α) :
    Except ChanError (MemoryChannelState α) :=
  if closed then .error .closedResource
  else .ok { st with open_send_channels := st.open_send_channels + 1 }

/-- `MemoryReceiveChannel.clone()`. -/
def cloneRecv {α : Type} (closed : Bool) (st : MemoryChannelState α) :
    Except ChanError (MemoryChannelState α) :=
  if closed then .error .closedResource
  else .ok { st with open_receive_channels := st.open_receive_channels + 1 }

/-- `MemorySendChannel.aclose()` on endpoint `eid`.  Returns the endpoint's
new `_closed` flag, the new shared state and the woken tasks (or
`assertionError` for the `assert not self._state.send_tasks`). -/
def acloseSend {α : Type} (closed : Bool) (eid : Nat)
    (st : MemoryChannelState α) :
    Except ChanError (Bool × MemoryChannelState α × List (Nat × Wake α)) :=
  if closed then .ok (true, st, [])
  else
    -- wake this endpoint's parked senders with ClosedResourceError and
    -- remove them from the shared send_tasks map
    let mine := st.send_tasks.filter (fun e => e.ep = eid)
    let others := st.send_tasks.filter (fun e => ¬ e.ep = eid)
    let wakes1 := mine.map (fun e => (e.task, Wake.err (α := α) .closedResource))
    let n := st.open_send_channels - 1
    let st1 := { st with send_tasks := others, open_send_channels := n }
    if n = 0 then
      if others.isEmpty then
        .ok (true,
          { st1 with receive_tasks := [] },
          wakes1 ++ st.receive_tasks.map
            (fun r => (r.task, Wake.err .endOfChannel)))
      else .error .assertionError
    else .ok (true, st1, wakes1)

/-- `MemoryReceiveChannel.aclose()` on endpoint `eid`.  When the last
receive endpoint closes, parked senders are woken with
`BrokenResourceError` and the buffer is cleared. -/
def acloseRecv {α : Type} (closed : Bool) (eid : Nat)
    (st : MemoryChannelState α) :
    Except ChanError (Bool × MemoryChannelState α × List (Nat × Wake α)) :=
  if closed then .ok (true, st, [])
  else
    let mine := st.receive_tasks.filter (fun e => e.ep = eid)
    let others := st.receive_tasks.filter (fun e => ¬ e.ep = eid)
    let wakes1 := mine.map (fun e => (e.task, Wake.err (α := α) .closedResource))
    let n := st.open_receive_channels - 1
    let st1 := { st with receive_tasks := others, open_receive_channels := n }
    if n = 0 then
      if others.isEmpty then
        .ok (true,
          { st1 with send_tasks := [], data := [] },
          wakes1 ++ st.send_tasks.map
            (fun s => (s.task, Wake.err .brokenResource)))
      else .error .assertionError
    else .ok (true, st1, wakes1)

/-- The Python argument passed to `open_memory_channel`: an `int`,
`math.inf`, or any other object (for which `x != inf` is true and
`isinstance(x, int)` is false). -/
inductive BufArg where
  | int (n : Int)
  | inf
  | other
deriving DecidableEq, Repr

/-- The Python exceptions raised by `open_memory_channel`. -/
inductive ArgError where
  | typeError
  | valueError
deriving DecidableEq, Repr

/-- `open_memory_channel(max_buffer_size)`: validate the argument, create a
fresh shared state, and register one send and one receive endpoint (each
endpoint's `__attrs_post_init__` increments its counter).  Both endpoints
start with `_closed = False`; they are returned as their `_closed` flags
alongside the single shared state. -/
def open_memory_channel (α : Type) (mb : BufArg) :
    Except ArgError (Bool × Bool × MemoryChannelState α) :=
  match mb with
  | .other => .error .typeError
  | .int n =>
      if n < 0 then .error .valueError
      else
        .ok (false, false,
          { MemoryChannelState.init α (.fin n.toNat) with
            open_send_channels := 1, open_receive_channels := 1 })
  | .inf =>
      .ok (false, false,
        { MemoryChannelState.init α .inf with
          open_send_channels := 1, open_receive_channels := 1 })

/-- `data.length == max_buffer_size` (never true for an infinite buffer). -/
def MemoryChannelState.bufferFull {α : Type} (st : MemoryChannelState α) : Bool :=
  match st.max_buffer_size with
  | .fin n => st.data.length = n
  | .inf => false

/-- The shared channel-state invariant stated by the spec: the buffer is
empty while `receive_tasks` is non-empty, and `send_tasks` is empty unless
the buffer is full.  The bound `data.length ≤ max_buffer_size` (phrased as
"below the bound or exactly full") is the auxiliary fact needed to push
the invariant through a parking `send`. -/
def chanInv {α : Type} (st : MemoryChannelState α) : Bool :=
  (st.receive_tasks.isEmpty || st.data.isEmpty) &&
  (st.send_tasks.isEmpty || st.bufferFull) &&
  (MaxBuf.ltBuf st.data.length st.max_buffer_size || st.bufferFull)

/-- Unfolding of `chanInv` into its three propositional conjuncts. -/
theorem chanInv_iff {α : Type} (st : MemoryChannelState α) :
    chanInv st = true ↔
      (st.receive_tasks ≠ [] → st.data = []) ∧
      (st.send_tasks ≠ [] → st.bufferFull = true) ∧
      (MaxBuf.ltBuf st.data.length st.max_buffer_size = false →
        st.bufferFull = true) := by
  simp [chanInv, List.isEmpty_iff, or_iff_not_imp_left, and_assoc]

/-- C2: `send_nowait(v)` decides its outcome in exactly this precedence
order: closed endpoint → `ClosedResourceError`; no open receive endpoint →
`BrokenResourceError`; a parked receiver (in which case the buffer is
empty) → unpark the first-parked receiver and reschedule it with
`Value(v)`, buffer unchanged; buffer below `max_buffer` → append `v`;
otherwise → `WouldBlock`. -/
theorem send_nowait_precedence {α : Type} (closed : Bool)
    (st : MemoryChannelState α) (v : α) (hinv : chanInv st = true) :
    (closed = true → send_nowait closed st v = .error .closedResource) ∧
    (closed = false → st.open_receive_channels = 0 →
      send_nowait closed st v = .error .brokenResource) ∧
    (closed = false → st.open_receive_channels ≠ 0 →
      ∀ r rest, st.receive_tasks = r :: rest →
        st.data = [] ∧
        send_nowait closed st v =
          .ok ({ st with receive_tasks := rest }, [(r.task, .val v)])) ∧
    (closed = false → st.open_receive_channels ≠ 0 → st.receive_tasks = [] →
      MaxBuf.ltBuf st.data.length st.max_buffer_size = true →
      send_nowait closed st v = .ok ({ st with data := st.data ++ [v] }, [])) ∧
    (closed = false → st.open_receive_channels ≠ 0 → st.receive_tasks = [] →
      MaxBuf.ltBuf st.data.length st.max_buffer_size = false →
      send_nowait closed st v = .error .wouldBlock) := by
  obtain ⟨h1, h2, h3⟩ := (chanInv_iff st).mp hinv
  refine ⟨fun hc => ?_, fun hc ho => ?_, fun hc ho r rest hr => ?_,
    fun hc ho hr hlt => ?_, fun hc ho hr hlt => ?_⟩
  · simp [send_nowait, hc]
  · simp [send_nowait, hc, ho]
  · have hd : st.data = [] := h1 (by simp [hr])
    exact ⟨hd, by simp [send_nowait, hc, ho, hr, hd]⟩
  · simp [send_nowait, hc, ho, hr, hlt]
  · simp [send_nowait, hc, ho, hr, hlt]

/-- Witness for C2: on a concrete one-slot channel with a parked receiver,
`send_nowait` unparks the receiver and hands it the value directly. -/
theorem send_nowait_precedence_witness :
    ({ max_buffer_size := .fin 1, data := [], open_send_channels := 1,
       open_receive_channels := 1, send_tasks := [],
       receive_tasks := [⟨7, 0⟩] } : MemoryChannelState Nat).data = [] ∧
    send_nowait false
      ({ max_buffer_size := .fin 1, data := [], open_send_channels := 1,
         open_receive_channels := 1, send_tasks := [],
         receive_tasks := [⟨7, 0⟩] } : MemoryChannelState Nat) 42 =
      .ok ({ max_buffer_size := .fin 1, data := [], open_send_channels := 1,
             open_receive_channels := 1, send_tasks := [],
             receive_tasks := [] }, [(7, .val 42)]) :=
  (send_nowait_precedence false _ 42 (by decide)).2.2.1 rfl (by decide)
    ⟨7, 0⟩ [] rfl

/-- C3: `receive_nowait()` behaves as: closed endpoint →
`ClosedResourceError`; a parked sender → unpark the first-parked sender,
reschedule it with `Value(())`, append its value to the back of the
buffer, then pop and return the front of the buffer (with a non-empty
buffer, the oldest buffered item, not the unparked sender's value);
non-empty buffer → pop-front; no open send endpoint → `EndOfChannel`;
otherwise → `WouldBlock`. -/
theorem receive_nowait_behaviour {α : Type} (closed : Bool)
    (st : MemoryChannelState α) :
    (closed = true → receive_nowait closed st = .error .closedResource) ∧
    (closed = false → ∀ s srest d ds, st.send_tasks = s :: srest →
      st.data = d :: ds →
      receive_nowait closed st =
        .ok ({ st with send_tasks := srest, data := ds ++ [s.value] },
          d, [(s.task, .unitVal)])) ∧
    (closed = false → ∀ s srest, st.send_tasks = s :: srest → st.data = [] →
      receive_nowait closed st =
        .ok ({ st with send_tasks := srest, data := [] },
          s.value, [(s.task, .unitVal)])) ∧
    (closed = false → st.send_tasks = [] → ∀ d ds, st.data = d :: ds →
      receive_nowait closed st = .ok ({ st with data := ds }, d, [])) ∧
    (closed = false → st.send_tasks = [] → st.data = [] →
      st.open_send_channels = 0 →
      receive_nowait closed st = .error .endOfChannel) ∧
    (closed = false → st.send_tasks = [] → st.data = [] →
      st.open_send_channels ≠ 0 →
      receive_nowait closed st = .error .wouldBlock) := by
  refine ⟨fun hc => ?_, fun hc s srest d ds hs hd => ?_,
    fun hc s srest hs hd => ?_, fun hc hs d ds hd => ?_,
    fun hc hs hd ho => ?_, fun hc hs hd ho => ?_⟩
  · simp [receive_nowait, hc]
  · simp [receive_nowait, receive_fall_through, hc, hs, hd]
  · simp [receive_nowait, receive_fall_through, hc, hs, hd]
  · simp [receive_nowait, receive_fall_through, hc, hs, hd]
  · simp [receive_nowait, receive_fall_through, hc, hs, hd, ho]
  · simp [receive_nowait, receive_fall_through, hc, hs, hd, ho]

/-- Witness for C3: with a buffered item and a parked sender, the oldest
buffered item is returned, and the sender's value goes to the back of the
buffer. -/
theorem receive_nowait_behaviour_witness :
    receive_nowait false
      ({ max_buffer_size := .fin 1, data := [10], open_send_channels := 1,
         open_receive_channels := 1, send_tasks := [⟨3, 0, 20⟩],
         receive_tasks := [] } : MemoryChannelState Nat) =
      .ok ({ max_buffer_size := .fin 1, data := [20],
             open_send_channels := 1, open_receive_channels := 1,
             send_tasks := [], receive_tasks := [] },
        10, [(3, .unitVal)]) :=
  (receive_nowait_behaviour false _).2.1 rfl ⟨3, 0, 20⟩ [] 10 [] rfl rfl

/-- A state with an empty buffer that is not below the buffer bound is
exactly full (its `max_buffer_size` must be 0). -/
theorem bufferFull_nil_of_not_lt {α : Type} {st : MemoryChannelState α}
    (hd : st.data = [])
    (h : MaxBuf.ltBuf st.data.length st.max_buffer_size = false) :
    st.bufferFull = true := by
  cases hmb : st.max_buffer_size with
  | fin n =>
      simp only [MaxBuf.ltBuf, hmb, hd, List.length_nil,
        decide_eq_false_iff_not, Nat.not_lt, Nat.le_zero] at h
      simp [MemoryChannelState.bufferFull, hmb, hd, h]
  | inf => simp [MaxBuf.ltBuf, hmb, hd] at h

/-- Inversion: `send_nowait` raises `WouldBlock` only with no parked
receiver and a full buffer. -/
theorem send_nowait_wouldBlock {α : Type} {closed : Bool}
    {st : MemoryChannelState α} {v : α}
    (h : send_nowait closed st v = .error .wouldBlock) :
    st.receive_tasks = [] ∧
      MaxBuf.ltBuf st.data.length st.max_buffer_size = false := by
  unfold send_nowait at h
  split at h
  · simp at h
  split at h
  · simp at h
  split at h
  · split at h <;> simp at h
  · next hr =>
      split at h
      · simp at h
      · next hlt => exact ⟨hr, by simpa using hlt⟩

/-- Inversion: `receive_nowait` raises `WouldBlock` only with no parked
sender and an empty buffer. -/
theorem receive_nowait_wouldBlock {α : Type} {closed : Bool}
    {st : MemoryChannelState α}
    (h : receive_nowait closed st = .error .wouldBlock) :
    st.send_tasks = [] ∧ st.data = [] := by
  unfold receive_nowait at h
  split at h
  · simp at h
  split at h
  · next s rest hs =>
      unfold receive_fall_through at h
      split at h
      · simp at h
      · next heq => simp at heq
  · next hs =>
      unfold receive_fall_through at h
      split at h
      · simp at h
      · next heq => exact ⟨hs, heq⟩

/-- `send_nowait` preserves the channel invariant. -/
theorem chanInv_send_nowait {α : Type} {closed : Bool}
    {st st1 : MemoryChannelState α} {v : α} {w : List (Nat × Wake α)}
    (hinv : chanInv st = true) (h : send_nowait closed st v = .ok (st1, w)) :
    chanInv st1 = true := by
  rw [chanInv_iff] at hinv ⊢
  obtain ⟨h1, h2, h3⟩ := hinv
  unfold send_nowait at h
  split at h
  · simp at h
  split at h
  · simp at h
  split at h
  · next r rest hr =>
      split at h
      · next hd =>
          rw [List.isEmpty_iff] at hd
          simp only [Except.ok.injEq, Prod.mk.injEq] at h
          obtain ⟨hst, -⟩ := h
          subst hst
          refine ⟨fun _ => hd, fun hs => h2 hs, h3⟩
      · simp at h
  · next hr =>
      split at h
      · next hlt =>
          simp only [Except.ok.injEq, Prod.mk.injEq] at h
          obtain ⟨hst, -⟩ := h
          subst hst
          refine ⟨by simp [hr], fun hs => ?_, ?_⟩
          · -- a parked sender would mean the buffer was already full,
            -- contradicting `ltBuf`
            have hfull := h2 hs
            simp only [MemoryChannelState.bufferFull] at hfull
            revert hfull hlt
            cases st.max_buffer_size <;> simp [MaxBuf.ltBuf]
            omega
          · simp only [MaxBuf.ltBuf, MemoryChannelState.bufferFull,
              List.length_append, List.length_cons, List.length_nil]
            revert hlt
            cases st.max_buffer_size <;> simp [MaxBuf.ltBuf]
            omega
      · simp at h

/-- `receive_nowait` preserves the channel invariant. -/
theorem chanInv_receive_nowait {α : Type} {closed : Bool}
    {st st1 : MemoryChannelState α} {v : α} {w : List (Nat × Wake α)}
    (hinv : chanInv st = true) (h : receive_nowait closed st = .ok (st1, v, w)) :
    chanInv st1 = true := by
  rw [chanInv_iff] at hinv ⊢
  obtain ⟨h1, h2, h3⟩ := hinv
  unfold receive_nowait at h
  split at h
  · simp at h
  split at h
  · next s rest hs =>
      unfold receive_fall_through at h
      split at h
      · next d ds heq =>
          simp only [Except.ok.injEq, Prod.mk.injEq] at h
          obtain ⟨hst, -⟩ := h
          subst hst
          have hfull : st.bufferFull = true := h2 (by simp [hs])
          simp only [MemoryChannelState.bufferFull] at hfull
          have hlen : ds.length = st.data.length := by
            have := congrArg List.length heq
            simp at this
            omega
          refine ⟨fun hrt => ?_, fun _ => ?_, ?_⟩
          · -- a parked receiver means the buffer was empty, so the
            -- appended value is immediately consumed
            have hd := h1 hrt
            rw [hd] at heq
            simp at heq
            exact heq.2
          · simpa [MemoryChannelState.bufferFull, hlen] using hfull
          · simpa [MaxBuf.ltBuf, MemoryChannelState.bufferFull, hlen] using h3
      · next heq => simp at heq
  · next hs =>
      unfold receive_fall_through at h
      split at h
      · next d ds heq =>
          simp only [Except.ok.injEq, Prod.mk.injEq] at h
          obtain ⟨hst, -⟩ := h
          subst hst
          have hlen : st.data.length = ds.length + 1 := by rw [heq]; simp
          have hle : MaxBuf.ltBuf ds.length st.max_buffer_size = true := by
            by_cases hb : MaxBuf.ltBuf st.data.length st.max_buffer_size = true
            · revert hb
              cases st.max_buffer_size <;> simp [MaxBuf.ltBuf, hlen]
              omega
            · have hfull := h3 (by simpa using hb)
              simp only [MemoryChannelState.bufferFull] at hfull
              revert hfull
              cases st.max_buffer_size <;> simp [MaxBuf.ltBuf, hlen]
              omega
          refine ⟨fun hrt => absurd (h1 hrt) (by simp [heq]), by simp [hs],
            fun hlt1 => ?_⟩
          have hlt2 : MaxBuf.ltBuf ds.length st.max_buffer_size = false := hlt1
          exact Bool.noConfusion (hle.symm.trans hlt2)
      · split at h <;> simp at h

/-- A parking `send` preserves the channel invariant. -/
theorem chanInv_send_parked {α : Type} {closed : Bool}
    {st st1 : MemoryChannelState α} {v : α} {tid eid : Nat}
    (hinv : chanInv st = true) (h : send closed st v tid eid = .parked st1) :
    chanInv st1 = true := by
  rw [chanInv_iff] at hinv ⊢
  obtain ⟨h1, h2, h3⟩ := hinv
  unfold send at h
  split at h
  · simp at h
  · next heq =>
      simp only [AsyncRes.parked.injEq] at h
      subst h
      obtain ⟨hr, hlt⟩ := send_nowait_wouldBlock heq
      have hfull : st.bufferFull = true := h3 hlt
      exact ⟨fun hrt => h1 hrt, fun _ => hfull, fun _ => hfull⟩
  · simp at h

/-- A parking `receive` preserves the channel invariant. -/
theorem chanInv_receive_parked {α : Type} {closed : Bool}
    {st st1 : MemoryChannelState α} {tid eid : Nat}
    (hinv : chanInv st = true) (h : receive closed st tid eid = .parked st1) :
    chanInv st1 = true := by
  rw [chanInv_iff] at hinv ⊢
  obtain ⟨h1, h2, h3⟩ := hinv
  unfold receive at h
  split at h
  · simp at h
  · next heq =>
      simp only [AsyncRes.parked.injEq] at h
      subst h
      obtain ⟨hs, hd⟩ := receive_nowait_wouldBlock heq
      refine ⟨fun _ => hd, fun hst => absurd hs hst, fun hlt => ?_⟩
      exact @bufferFull_nil_of_not_lt α st hd hlt
  · simp at h

/-- `clone` (either endpoint) preserves the channel invariant: it only
touches the endpoint counters. -/
theorem chanInv_clone {α : Type} {closed : Bool} {st st1 : MemoryChannelState α}
    (hinv : chanInv st = true)
    (h : cloneSend closed st = .ok st1 ∨ cloneRecv closed st = .ok st1) :
    chanInv st1 = true := by
  rcases h with h | h
  · unfold cloneSend at h
    split at h
    · simp at h
    · simp only [Except.ok.injEq] at h
      subst h
      exact hinv
  · unfold cloneRecv at h
    split at h
    · simp at h
    · simp only [Except.ok.injEq] at h
      subst h
      exact hinv

/-- `aclose` on a send endpoint preserves the channel invariant. -/
theorem chanInv_acloseSend {α : Type} {closed : Bool} {eid : Nat}
    {st : MemoryChannelState α} {c1 : Bool} {st1 : MemoryChannelState α}
    {w : List (Nat × Wake α)}
    (hinv : chanInv st = true) (h : acloseSend closed eid st = .ok (c1, st1, w)) :
    chanInv st1 = true := by
  rw [chanInv_iff] at hinv ⊢
  obtain ⟨h1, h2, h3⟩ := hinv
  simp only [acloseSend] at h
  split at h
  · simp only [Except.ok.injEq, Prod.mk.injEq] at h
    obtain ⟨-, hst, -⟩ := h
    subst hst
    exact ⟨h1, h2, h3⟩
  · split at h
    · split at h
      · next hothers =>
          simp only [Except.ok.injEq, Prod.mk.injEq] at h
          obtain ⟨-, hst, -⟩ := h
          subst hst
          have hemp := List.isEmpty_iff.mp hothers
          exact ⟨fun hrt => absurd rfl hrt, fun hsend => absurd hemp hsend,
            fun hlt => h3 hlt⟩
      · simp at h
    · simp only [Except.ok.injEq, Prod.mk.injEq] at h
      obtain ⟨-, hst, -⟩ := h
      subst hst
      refine ⟨fun hrt => h1 hrt, fun hst => ?_, fun hlt => h3 hlt⟩
      apply h2
      intro hnil
      simp [hnil] at hst

/-- `aclose` on a receive endpoint preserves the channel invariant. -/
theorem chanInv_acloseRecv {α : Type} {closed : Bool} {eid : Nat}
    {st : MemoryChannelState α} {c1 : Bool} {st1 : MemoryChannelState α}
    {w : List (Nat × Wake α)}
    (hinv : chanInv st = true) (h : acloseRecv closed eid st = .ok (c1, st1, w)) :
    chanInv st1 = true := by
  rw [chanInv_iff] at hinv ⊢
  obtain ⟨h1, h2, h3⟩ := hinv
  simp only [acloseRecv] at h
  split at h
  · simp only [Except.ok.injEq, Prod.mk.injEq] at h
    obtain ⟨-, hst, -⟩ := h
    subst hst
    exact ⟨h1, h2, h3⟩
  · split at h
    · split at h
      · next hothers =>
          simp only [Except.ok.injEq, Prod.mk.injEq] at h
          obtain ⟨-, hst, -⟩ := h
          subst hst
          have hemp := List.isEmpty_iff.mp hothers
          refine ⟨fun hrt => rfl, fun hsend => absurd rfl hsend,
            fun hlt => ?_⟩
          exact bufferFull_nil_of_not_lt (α := α) rfl hlt
      · simp at h
    · simp only [Except.ok.injEq, Prod.mk.injEq] at h
      obtain ⟨-, hst, -⟩ := h
      subst hst
      refine ⟨fun hrt => ?_, fun hst => h2 hst, fun hlt => h3 hlt⟩
      apply h1
      intro hnil
      simp [hnil] at hrt

/-- The channel operations quantified over by the invariant claim. -/
inductive ChanOp (α : Type) where
  | opSendNowait (closed : Bool) (v : α)
  | opSend (closed : Bool) (v : α) (tid eid : Nat)
  | opRecvNowait (closed : Bool)
  | opRecv (closed : Bool) (tid eid : Nat)
  | opCloneSend (closed : Bool)
  | opCloneRecv (closed : Bool)
  | opAcloseSend (closed : Bool) (eid : Nat)
  | opAcloseRecv (closed : Bool) (eid : Nat)

/-- Run one channel operation on the shared state, returning the new shared
state when the operation completes or parks its caller (an operation that
raises leaves the shared state untouched, so it returns `none`). -/
def applyChanOp {α : Type} (op : ChanOp α) (st : MemoryChannelState α) :
    Option (MemoryChannelState α) :=
  match op with
  | .opSendNowait c v =>
      match send_nowait c st v with
      | .ok (st1, _) => some st1
      | .error _ => none
  | .opSend c v t e =>
      match send c st v t e with
      | .completed st1 _ _ => some st1
      | .parked st1 => some st1
      | .errored _ => none
  | .opRecvNowait c =>
      match receive_nowait c st with
      | .ok (st1, _, _) => some st1
      | .error _ => none
  | .opRecv c t e =>
      match receive c st t e with
      | .completed st1 _ _ => some st1
      | .parked st1 => some st1
      | .errored _ => none
  | .opCloneSend c =>
      match cloneSend c st with
      | .ok st1 => some st1
      | .error _ => none
  | .opCloneRecv c =>
      match cloneRecv c st with
      | .ok st1 => some st1
      | .error _ => none
  | .opAcloseSend c e =>
      match acloseSend c e st with
      | .ok (_, st1, _) => some st1
      | .error _ => none
  | .opAcloseRecv c e =>
      match acloseRecv c e st with
      | .ok (_, st1, _) => some st1
      | .error _ => none

/-- C5: the shared channel-state invariant (buffer empty whenever
`receive_tasks` is non-empty; `send_tasks` empty unless the buffer is
full; plus the auxiliary buffer bound) holds on the state created by
`open_memory_channel` and is preserved by every channel operation:
`send_nowait`, `send`, `receive_nowait`, `receive`, `clone` and `aclose`
on either endpoint. -/
theorem chanInv_holds {α : Type} :
    (∀ (arg : BufArg) (cs cr : Bool) (st0 : MemoryChannelState α),
      open_memory_channel α arg = .ok (cs, cr, st0) → chanInv st0 = true) ∧
    (∀ (st : MemoryChannelState α) (op : ChanOp α) (st1 : MemoryChannelState α),
      chanInv st = true → applyChanOp op st = some st1 → chanInv st1 = true) := by
  constructor
  · intro arg cs cr st0 h
    cases arg <;> simp only [open_memory_channel] at h
    case int n =>
      split at h
      · exact absurd h (by simp)
      · simp only [Except.ok.injEq, Prod.mk.injEq] at h
        obtain ⟨-, -, hst⟩ := h
        subst hst
        simp [chanInv, MemoryChannelState.init, MaxBuf.ltBuf,
          MemoryChannelState.bufferFull]
        omega
    case inf =>
      simp only [Except.ok.injEq, Prod.mk.injEq] at h
      obtain ⟨-, -, hst⟩ := h
      subst hst
      simp [chanInv, MemoryChannelState.init, MaxBuf.ltBuf]
    case other => exact absurd h (by simp)
  · intro st op st1 hinv h
    cases op <;> simp only [applyChanOp] at h
    case opSendNowait c v =>
      split at h
      · next st2 w heq =>
          obtain rfl : st2 = st1 := Option.some.inj h
          exact chanInv_send_nowait hinv heq
      · exact absurd h (by simp)
    case opSend c v t e =>
      split at h
      · next st2 r w heq =>
          obtain rfl : st2 = st1 := Option.some.inj h
          unfold send at heq
          split at heq
          · next st3 w3 heq3 =>
              simp only [AsyncRes.completed.injEq] at heq
              obtain ⟨h4, -, -⟩ := heq
              subst h4
              exact chanInv_send_nowait hinv heq3
          · simp at heq
          · simp at heq
      · next st2 heq =>
          obtain rfl : st2 = st1 := Option.some.inj h
          exact chanInv_send_parked hinv heq
      · exact absurd h (by simp)
    case opRecvNowait c =>
      split at h
      · next st2 v w heq =>
          obtain rfl : st2 = st1 := Option.some.inj h
          exact chanInv_receive_nowait hinv heq
      · exact absurd h (by simp)
    case opRecv c t e =>
      split at h
      · next st2 r w heq =>
          obtain rfl : st2 = st1 := Option.some.inj h
          unfold receive at heq
          split at heq
          · next st3 v3 w3 heq3 =>
              simp only [AsyncRes.completed.injEq] at heq
              obtain ⟨h4, -, -⟩ := heq
              subst h4
              exact chanInv_receive_nowait hinv heq3
          · simp at heq
          · simp at heq
      · next st2 heq =>
          obtain rfl : st2 = st1 := Option.some.inj h
          exact chanInv_receive_parked hinv heq
      · exact absurd h (by simp)
    case opCloneSend c =>
      split at h
      · next st2 heq =>
          obtain rfl : st2 = st1 := Option.some.inj h
          exact chanInv_clone hinv (Or.inl heq)
      · exact absurd h (by simp)
    case opCloneRecv c =>
      split at h
      · next st2 heq =>
          obtain rfl : st2 = st1 := Option.some.inj h
          exact chanInv_clone hinv (Or.inr heq)
      · exact absurd h (by simp)
    case opAcloseSend c e =>
      split at h
      · next c2 st2 w heq =>
          obtain rfl : st2 = st1 := Option.some.inj h
          exact chanInv_acloseSend hinv heq
      · exact absurd h (by simp)
    case opAcloseRecv c e =>
      split at h
      · next c2 st2 w heq =>
          obtain rfl : st2 = st1 := Option.some.inj h
          exact chanInv_acloseRecv hinv heq
      · exact absurd h (by simp)

/-- Witness for C5: the invariant holds on a freshly opened channel of
buffer size 1, and is preserved by a concrete `send_nowait`. -/
theorem chanInv_holds_witness :
    chanInv ({ max_buffer_size := .fin 1, data := [],
               open_send_channels := 1, open_receive_channels := 1,
               send_tasks := [],
               receive_tasks := [] } : MemoryChannelState Nat) = true ∧
    chanInv ({ max_buffer_size := .fin 1, data := [5],
               open_send_channels := 1, open_receive_channels := 1,
               send_tasks := [],
               receive_tasks := [] } : MemoryChannelState Nat) = true := by
  constructor
  · exact (chanInv_holds (α := Nat)).1 (.int 1) false false _ rfl
  · exact (chanInv_holds (α := Nat)).2
      { max_buffer_size := .fin 1, data := [], open_send_channels := 1,
        open_receive_channels := 1, send_tasks := [], receive_tasks := [] }
      (.opSendNowait false 5) _ (by decide) rfl

/-- C4: `aclose` on an open send endpoint wakes every task parked in
`send` on that endpoint with `ClosedResourceError` and removes it from the
shared `send_tasks` map; when the endpoint was the last open send endpoint
(the counter drops to 0), every parked receiver is additionally woken with
`EndOfChannel` and `receive_tasks` is emptied.  (The hypothesis `hown`
reflects that parked senders only exist on open endpoints, so when the
last endpoint closes, all remaining parked senders are its own.) -/
theorem acloseSend_open {α : Type} (eid : Nat) (st : MemoryChannelState α)
    (hown : st.open_send_channels = 1 →
      st.send_tasks.filter (fun e => ¬ e.ep = eid) = []) :
    (2 ≤ st.open_send_channels →
      acloseSend false eid st =
        .ok (true,
          { st with send_tasks := st.send_tasks.filter (fun e => ¬ e.ep = eid),
                    open_send_channels := st.open_send_channels - 1 },
          (st.send_tasks.filter (fun e => e.ep = eid)).map
            (fun e => (e.task, Wake.err .closedResource)))) ∧
    (st.open_send_channels = 1 →
      acloseSend false eid st =
        .ok (true,
          { st with send_tasks := [], receive_tasks := [],
                    open_send_channels := 0 },
          (st.send_tasks.filter (fun e => e.ep = eid)).map
              (fun e => (e.task, Wake.err .closedResource)) ++
            st.receive_tasks.map (fun r => (r.task, Wake.err .endOfChannel)))) := by
  constructor
  · intro hge
    have hne : ¬ st.open_send_channels - 1 = 0 := by omega
    simp only [acloseSend, Bool.false_eq_true, if_false, hne]
  · intro h1
    have hothers := hown h1
    simp only [acloseSend, Bool.false_eq_true, if_false, h1, hothers]
    simp [hothers]

/-- Witness for C4: closing the last send endpoint of a rendezvous channel
with one parked receiver wakes that receiver with `EndOfChannel`. -/
theorem acloseSend_open_witness :
    acloseSend false 0
      ({ max_buffer_size := .fin 0, data := [],
         open_send_channels := 1, open_receive_channels := 1,
         send_tasks := [],
         receive_tasks := [⟨4, 1⟩] } : MemoryChannelState Nat) =
      .ok (true,
        { max_buffer_size := .fin 0, data := [],
          open_send_channels := 0, open_receive_channels := 1,
          send_tasks := [], receive_tasks := [] },
        [(4, .err .endOfChannel)]) := by
  have h := (acloseSend_open (α := Nat) 0
    { max_buffer_size := .fin 0, data := [],
      open_send_channels := 1, open_receive_channels := 1,
      send_tasks := [], receive_tasks := [⟨4, 1⟩] } (by decide)).2 rfl
  simpa using h

/-- C9: `open_memory_channel(max_buffer_size)` raises `TypeError` for an
argument that is neither an `int` nor `math.inf`, raises `ValueError` for
a negative `int`, and otherwise returns a pair of open endpoints sharing
one fresh state with an empty buffer and both endpoint counters equal
to 1. -/
theorem open_memory_channel_spec (α : Type) :
    (open_memory_channel α .other = .error .typeError) ∧
    (∀ n : Int, n < 0 →
      open_memory_channel α (.int n) = .error .valueError) ∧
    (∀ n : Int, 0 ≤ n →
      open_memory_channel α (.int n) =
        .ok (false, false,
          { max_buffer_size := .fin n.toNat, data := [],
            open_send_channels := 1, open_receive_channels := 1,
            send_tasks := [], receive_tasks := [] })) ∧
    (open_memory_channel α .inf =
      .ok (false, false,
        { max_buffer_size := .inf, data := [],
          open_send_channels := 1, open_receive_channels := 1,
          send_tasks := [], receive_tasks := [] })) := by
  refine ⟨rfl, fun n hn => ?_, fun n hn => ?_, rfl⟩
  · simp [open_memory_channel, hn]
  · simp [open_memory_channel, MemoryChannelState.init, not_lt.mpr hn]

/-- Witness for C9: buffer size 3 is accepted and yields the fresh shared
state; buffer size -1 raises `ValueError`. -/
theorem open_memory_channel_spec_witness :
    open_memory_channel Nat (.int 3) =
      .ok (false, false,
        { max_buffer_size := .fin 3, data := [],
          open_send_channels := 1, open_receive_channels := 1,
          send_tasks := [], receive_tasks := [] }) ∧
    open_memory_channel Nat (.int (-1)) = .error .valueError :=
  ⟨(open_memory_channel_spec Nat).2.2.1 3 (by decide),
   (open_memory_channel_spec Nat).2.1 (-1) (by decide)⟩

/-- C10: `aclose` on an already-closed endpoint (sender or receiver) is a
no-op apart from the checkpoint: it returns normally, wakes nobody, and
leaves the shared state untouched. -/
theorem aclose_idempotent {α : Type} (eid : Nat) (st : MemoryChannelState α) :
    acloseSend true eid st = .ok (true, st, []) ∧
    acloseRecv true eid st = .ok (true, st, []) :=
  ⟨rfl, rfl⟩

/-! ## CancelStatus tree (`trio/_core/_run.py`) -/

/-- A Python float deadline: both infinities plus finite values (modelled
by rationals). -/
abbrev DFloat := WithBot (WithTop ℚ)

/-- `math.inf`. -/
def dInf : DFloat := ((⊤ : WithTop ℚ) : WithBot (WithTop ℚ))

/-- `-math.inf`, the value returned by `effective_deadline` of a cancelled
status. -/
def dNegInf : DFloat := ⊥

/-- A finite deadline. -/
def dFin (q : ℚ) : DFloat := ((q : WithTop ℚ) : WithBot (WithTop ℚ))

/-- The fields of a `CancelScope` that its `CancelStatus` reads:
`cancel_called`, `shield` and `deadline`. -/
structure ScopeData where
  cancel_called : Bool
  shield : Bool
  deadline : DFloat
deriving DecidableEq

mutual
/-- The `CancelStatus` tree.  A node stores its scope's data, the stored
`effectively_cancelled` flag, the `abandoned_by_misnesting` flag, the
identifiers of the tasks in `_tasks`, and the `_children` set (an ordered
forest; the Python set order is irrelevant to every property proved
here).  The `_parent` back-references are implicit in the nesting. -/
inductive CTree where
  | node (scope : ScopeData) (eff : Bool) (abandoned : Bool)
         (tasks : List Nat) (children : CForest)
deriving DecidableEq
inductive CForest where
  | nil
  | cons (t : CTree) (rest : CForest)
deriving DecidableEq
end

def CTree.scope : CTree → ScopeData
  | .node sc _ _ _ _ => sc

def CTree.eff : CTree → Bool
  | .node _ e _ _ _ => e

def CTree.abandoned : CTree → Bool
  | .node _ _ ab _ _ => ab

def CTree.tasks : CTree → List Nat
  | .node _ _ _ ts _ => ts

def CTree.children : CTree → CForest
  | .node _ _ _ _ cs => cs

/-- The value `recalculate` computes for a node:
`scope.cancel_called or parent_cancellation_is_visible_to_us`, where the
latter is `parent is not None and not scope.shield and
parent.effectively_cancelled`.  `pe` is the parent's stored
`effectively_cancelled` (or `none` for a root). -/
def effOf (pe : Option Bool) (sc : ScopeData) : Bool :=
  sc.cancel_called ||
    (match pe with
     | some p => !sc.shield && p
     | none => false)

mutual
/-- `CancelStatus.recalculate()`: depth-first re-evaluation.  A node whose
stored flag already equals the recomputed value is left alone and its
children are not visited (the Python loop extends `todo` with the
children only inside the `if new_state != ...` branch). -/
def recalculate (pe : Option Bool) : CTree → CTree
  | .node sc eff ab tasks cs =>
      if effOf pe sc = eff then .node sc eff ab tasks cs
      else .node sc (effOf pe sc) ab tasks (recalculateF (some (effOf pe sc)) cs)
def recalculateF (pe : Option Bool) : CForest → CForest
  | .nil => .nil
  | .cons t rest => .cons (recalculate pe t) (recalculateF pe rest)
end

mutual
/-- `CancelStatus._mark_abandoned()`: set `abandoned_by_misnesting` on the
whole subtree. -/
def markAbandoned : CTree → CTree
  | .node sc eff _ tasks cs => .node sc eff true tasks (markAbandonedF cs)
def markAbandonedF : CForest → CForest
  | .nil => .nil
  | .cons t rest => .cons (markAbandoned t) (markAbandonedF rest)
end

/-- `CancelStatus.close()`: the node detaches from its parent (implicit
here: the subtree is returned stand-alone); if tasks or children remain
(mis-nesting) the subtree is marked abandoned, the node's
`effectively_cancelled` is forced to `True`, and every child is
recalculated (seeing the parent flag `True`).  Otherwise the node simply
becomes unreferenced (`none`). -/
def close : CTree → Option CTree
  | .node sc eff ab tasks cs =>
      if tasks = [] ∧ cs = .nil then none
      else
        match markAbandoned (.node sc eff ab tasks cs) with
        | .node sc2 _ ab2 tasks2 cs2 =>
            some (.node sc2 true ab2 tasks2 (recalculateF (some true) cs2))

/-- `CancelScope.cancel()` as seen by the status subtree: the scope object
referenced by the root sets its `cancel_called` flag (the subsequent
`recalculate()` is applied separately). -/
def setCancelCalled : CTree → CTree
  | .node sc eff ab tasks cs =>
      .node { sc with cancel_called := true } eff ab tasks cs

mutual
/-- The spec's quantified invariant at a node whose parent has stored flag
`pe` (`none` for a root): the stored `effectively_cancelled` equals
`scope.cancel_called ∨ (parent ≠ none ∧ ¬scope.shield ∧ parent.eff)`,
recursively down the subtree. -/
def invAt (pe : Option Bool) : CTree → Bool
  | .node sc eff _ _ cs => (eff == effOf pe sc) && invAtF (some eff) cs
def invAtF (pe : Option Bool) : CForest → Bool
  | .nil => true
  | .cons t rest => invAt pe t && invAtF pe rest
end

/-- The invariant restricted to the strict subtrees: every child satisfies
`invAt` with respect to the root's stored flag. -/
def childrenOk : CTree → Bool
  | .node _ eff _ _ cs => invAtF (some eff) cs

theorem childrenOk_of_invAt {pe : Option Bool} {t : CTree}
    (h : invAt pe t = true) : childrenOk t = true := by
  cases t with
  | node sc eff ab tasks cs =>
      simp only [invAt, Bool.and_eq_true] at h
      exact h.2

mutual
theorem invAt_markAbandoned : ∀ (pe : Option Bool) (t : CTree),
    invAt pe (markAbandoned t) = invAt pe t
  | pe, .node sc eff ab tasks cs => by
      simp only [markAbandoned, invAt, invAtF_markAbandonedF (some eff) cs]
theorem invAtF_markAbandonedF : ∀ (pe : Option Bool) (f : CForest),
    invAtF pe (markAbandonedF f) = invAtF pe f
  | _, .nil => rfl
  | pe, .cons t rest => by
      simp only [markAbandonedF, invAtF, invAt_markAbandoned pe t,
        invAtF_markAbandonedF pe rest]
end

mutual
/-- Key lemma: if every child of `t` satisfies the invariant with respect
to `t`'s stored flag, then after `recalculate` with any parent flag the
whole subtree satisfies the invariant. -/
theorem invAt_recalculate : ∀ (pe : Option Bool) (t : CTree),
    childrenOk t = true → invAt pe (recalculate pe t) = true
  | pe, .node sc eff ab tasks cs, h => by
      simp only [childrenOk] at h
      simp only [recalculate]
      split
      · next heq => simp [invAt, heq, h]
      · next hne =>
          simp only [invAt, beq_self_eq_true, Bool.true_and]
          exact invAtF_recalculateF (some eff) (some (effOf pe sc)) cs h
theorem invAtF_recalculateF : ∀ (pe0 pe : Option Bool) (f : CForest),
    invAtF pe0 f = true → invAtF pe (recalculateF pe f) = true
  | _, _, .nil, _ => rfl
  | pe0, pe, .cons t rest, h => by
      simp only [invAtF, Bool.and_eq_true] at h
      simp only [recalculateF, invAtF, Bool.and_eq_true]
      exact ⟨invAt_recalculate pe t (childrenOk_of_invAt h.1),
        invAtF_recalculateF pe0 pe rest h.2⟩
end

theorem childrenOk_setCancelCalled (t : CTree) :
    childrenOk (setCancelCalled t) = childrenOk t := by
  cases t with
  | node sc eff ab tasks cs => rfl

/-- C1 (amended): at quiescence the stored `effectively_cancelled` flag
satisfies `eff = scope.cancel_called ∨ (parent ≠ none ∧ ¬scope.shield ∧
parent.eff)` throughout any subtree that has just been recalculated —
in particular after `CancelScope.cancel()` sets `cancel_called` — and
after `CancelStatus.close()` on a node with remaining tasks or children
every strict descendant still satisfies the equation (with the root's
flag forced to `True`), but the closed root itself only satisfies
`eff = true`, not the equation (see the counterexample). -/
theorem cancelStatus_invariant (pe : Option Bool) (t : CTree)
    (h : childrenOk t = true) :
    invAt pe (recalculate pe t) = true ∧
    invAt pe (recalculate pe (setCancelCalled t)) = true ∧
    (∀ t2, close t = some t2 → t2.eff = true ∧ childrenOk t2 = true) := by
  refine ⟨invAt_recalculate pe t h, ?_, ?_⟩
  · exact invAt_recalculate pe (setCancelCalled t)
      (by rw [childrenOk_setCancelCalled]; exact h)
  · intro t2 ht2
    cases t with
    | node sc eff ab tasks cs =>
        simp only [close] at ht2
        split at ht2
        · exact absurd ht2 (by simp)
        · simp only [markAbandoned, Option.some.injEq] at ht2
          subst ht2
          refine ⟨rfl, ?_⟩
          simp only [childrenOk]
          apply invAtF_recalculateF (some eff)
          rw [invAtF_markAbandonedF]
          simpa only [childrenOk] using h

/-- Witness for C1 (amended): a root with one cancelled child; after
`cancel()` plus `recalculate()` the invariant holds, and closing the root
while the child is still attached forces the root flag to `True` with the
child still satisfying the equation. -/
theorem cancelStatus_invariant_witness :
    invAt none (recalculate none
      (.node ⟨false, false, dInf⟩ false false []
        (.cons (.node ⟨true, false, dInf⟩ true false [] .nil) .nil))) = true := by
  have h := cancelStatus_invariant none
    (.node ⟨false, false, dInf⟩ false false []
      (.cons (.node ⟨true, false, dInf⟩ true false [] .nil) .nil))
    (by decide)
  exact h.1

/-- The concrete mis-nested closure used to refute C1 as stated: a
non-cancelled root with one non-cancelled child. -/
def c1ex : CTree :=
  .node ⟨false, false, dInf⟩ false false []
    (.cons (.node ⟨false, false, dInf⟩ false false [] .nil) .nil)

/-- The result of `close c1ex`: the root is forced cancelled and
abandoned, and the child (seeing parent flag `True`) becomes effectively
cancelled. -/
def c1exClosed : CTree :=
  .node ⟨false, false, dInf⟩ true true []
    (.cons (.node ⟨false, false, dInf⟩ true true [] .nil) .nil)

/-- Counterexample to C1 as stated: before the close the invariant holds
everywhere, but after `close()` on a node with a remaining child the
closed root has `effectively_cancelled = true` while the claimed equation
gives `scope.cancel_called ∨ (parent ≠ none ∧ ...) = false` (its
`cancel_called` is still false and its parent is now `None`). -/
theorem cancelStatus_close_counterexample :
    invAt none c1ex = true ∧
    close c1ex = some c1exClosed ∧
    c1exClosed.eff = true ∧
    effOf none c1exClosed.scope = false ∧
    c1exClosed.eff ≠ effOf none c1exClosed.scope := by
  refine ⟨by decide, by decide, rfl, rfl, by decide⟩

/-- `CForest` indexing, used to address a node in the tree by a path of
child indices. -/
def CForest.get? : CForest → Nat → Option CTree
  | .nil, _ => none
  | .cons t _, 0 => some t
  | .cons _ f, n + 1 => f.get? n

/-- The chain of `(scope, effectively_cancelled)` pairs from the node at
`path` up to the root (the addressed node first), i.e. the node together
with its `_parent` chain. -/
def chainTo : CTree → List Nat → Option (List (ScopeData × Bool))
  | t, [] => some [(t.scope, t.eff)]
  | t, i :: rest =>
      match t.children.get? i with
      | some c => (chainTo c rest).map (fun l => l ++ [(t.scope, t.eff)])
      | none => none

/-- `CancelStatus.effective_deadline()`, computed along the node's parent
chain (`anc` lists the ancestors, nearest first): `-inf` if effectively
cancelled; the scope's own deadline if there is no parent or the scope is
shielded; else the minimum with the parent's effective deadline. -/
def effective_deadline : ScopeData × Bool → List (ScopeData × Bool) → DFloat
  | (sc, eff), anc =>
      if eff then dNegInf
      else
        match anc with
        | [] => sc.deadline
        | p :: rest =>
            if sc.shield then sc.deadline
            else min sc.deadline (effective_deadline p rest)

/-- The defining equation of `effective_deadline`, restated for rewriting. -/
theorem effective_deadline_def (sc : ScopeData) (eff : Bool)
    (anc : List (ScopeData × Bool)) :
    effective_deadline (sc, eff) anc =
      if eff then dNegInf
      else
        match anc with
        | [] => sc.deadline
        | p :: rest =>
            if sc.shield then sc.deadline
            else min sc.deadline (effective_deadline p rest) := by
  cases anc <;> rfl

/-- C8: for every node reachable in a `CancelStatus` tree,
`effective_deadline()` returns `-inf` when the node is effectively
cancelled; otherwise the scope's own deadline when the node has no parent
or its scope is shielded; otherwise the minimum of the scope's deadline
and the parent's `effective_deadline()`. -/
theorem effective_deadline_spec (t : CTree) (path : List Nat)
    (n : ScopeData × Bool) (anc : List (ScopeData × Bool))
    (hchain : chainTo t path = some (n :: anc)) :
    (n.2 = true → effective_deadline n anc = dNegInf) ∧
    (n.2 = false → anc = [] → effective_deadline n anc = n.1.deadline) ∧
    (n.2 = false → n.1.shield = true →
      effective_deadline n anc = n.1.deadline) ∧
    (n.2 = false → n.1.shield = false → ∀ p rest, anc = p :: rest →
      effective_deadline n anc =
        min n.1.deadline (effective_deadline p rest)) := by
  obtain ⟨sc, eff⟩ := n
  refine ⟨fun he => ?_, fun he ha => ?_, fun he hs => ?_,
    fun he hs p rest ha => ?_⟩
  · have he2 : eff = true := he
    rw [effective_deadline_def]
    simp [he2]
  · have he2 : eff = false := he
    subst ha
    rw [effective_deadline_def]
    simp [he2]
  · have he2 : eff = false := he
    have hs2 : sc.shield = true := hs
    cases anc <;> rw [effective_deadline_def] <;> simp [he2, hs2]
  · have he2 : eff = false := he
    have hs2 : sc.shield = false := hs
    subst ha
    rw [effective_deadline_def]
    simp [he2, hs2]

/-- Witness for C8: a shielded node under a cancelled parent still reports
its own (infinite) deadline, and the cancelled parent reports `-inf`. -/
theorem effective_deadline_spec_witness :
    effective_deadline (⟨false, true, dInf⟩, false) [(⟨true, false, dFin 3⟩, true)] =
      dInf ∧
    effective_deadline (⟨true, false, dFin 3⟩, true) [] = dNegInf := by
  constructor
  · exact (effective_deadline_spec
      (.node ⟨true, false, dFin 3⟩ true false []
        (.cons (.node ⟨false, true, dInf⟩ false false [] .nil) .nil))
      [0] (⟨false, true, dInf⟩, false) [(⟨true, false, dFin 3⟩, true)]
      rfl).2.2.1 rfl rfl
  · exact (effective_deadline_spec
      (.node ⟨true, false, dFin 3⟩ true false [] .nil)
      [] (⟨true, false, dFin 3⟩, true) [] rfl).1 rfl

/-! ## Deadlines heap (`trio/_core/_run.py`, class `Deadlines`) -/

/-- The per-scope registration state read by the `Deadlines` container:
`CancelScope._registered_deadline` and `CancelScope._cancel_called`. -/
structure ScopeReg where
  registered : DFloat
  cancel_called : Bool
deriving DecidableEq

/-- A heap entry `(deadline, id(cancel_scope))`; the scope identifier is
also the tiebreaker. -/
abbrev HeapEntry := DFloat × Nat

/-- The heap order on entries (lexicographic, as Python compares the
tuples `(deadline, id(scope), scope)`). -/
def entryLe (a b : HeapEntry) : Bool :=
  a.1 < b.1 || (a.1 = b.1 && a.2 ≤ b.2)

/-- `heappush` modelled on a sorted list: ordered insertion keeps the same
observable pop-min behaviour as the binary heap. -/
def insertEntry (e : HeapEntry) : List HeapEntry → List HeapEntry
  | [] => [e]
  | x :: xs => if entryLe e x then e :: x :: xs else x :: insertEntry e xs

/-- Association-list lookup for the scope table (`id(scope) ↦ state`). -/
def lookupScope (sid : Nat) : List (Nat × ScopeReg) → Option ScopeReg
  | [] => none
  | (k, v) :: rest => if k = sid then some v else lookupScope sid rest

/-- Overwrite one scope's state in the table. -/
def setScope (l : List (Nat × ScopeReg)) (sid : Nat) (v : ScopeReg) :
    List (Nat × ScopeReg) :=
  l.map (fun p => if p.1 = sid then (sid, v) else p)

/-- The `Deadlines` container together with every scope's registration
state: `_heap` (as a sorted list), the scope table, and the `_active`
counter. -/
structure DWorld where
  heap : List HeapEntry
  scopes : List (Nat × ScopeReg)
  active : Int
deriving DecidableEq

/-- The world before any scope exists: `Deadlines(_heap=[], _active=0)`. -/
def DWorld.init : DWorld := { heap := [], scopes := [], active := 0 }

/-- A fresh `CancelScope()`: `_registered_deadline = inf`,
`_cancel_called = False`, nothing in the heap. -/
def newScope (sid : Nat) (w : DWorld) : DWorld :=
  { w with scopes := w.scopes ++ [(sid, { registered := dInf, cancel_called := false })] }

/-- `CancelScope._might_change_registered_deadline` for a non-cancel
mutation: the new registered deadline is `inf` if the scope is cancelled,
else the proposed value (`inf` also covers "scope not active").  If it
changed: store it, `Deadlines.remove(old, scope)` (which only decrements
`_active`, leaving the heap entry stale) when the old value was finite,
and `Deadlines.add(new, scope)` (heap push plus `_active += 1`) when the
new one is. -/
def updateDeadline (sid : Nat) (proposed : DFloat) (w : DWorld) : DWorld :=
  match lookupScope sid w.scopes with
  | none => w
  | some r =>
      let new := if r.cancel_called then dInf else proposed
      if r.registered = new then w
      else
        let scopes1 := setScope w.scopes sid { registered := new, cancel_called := r.cancel_called }
        let a1 := if r.registered ≠ dInf then w.active - 1 else w.active
        if new ≠ dInf then
          { heap := insertEntry (new, sid) w.heap, scopes := scopes1,
            active := a1 + 1 }
        else
          { heap := w.heap, scopes := scopes1, active := a1 }

/-- `CancelScope.cancel()` as seen by the `Deadlines` container: a no-op if
already cancelled, else set `_cancel_called` and re-register the deadline
(now `inf`): remove the old registration when it was finite. -/
def cancelScope (sid : Nat) (w : DWorld) : DWorld :=
  match lookupScope sid w.scopes with
  | none => w
  | some r =>
      if r.cancel_called then w
      else
        let scopes1 := setScope w.scopes sid { registered := dInf, cancel_called := true }
        if r.registered = dInf then { w with scopes := scopes1 }
        else { heap := w.heap, scopes := scopes1, active := w.active - 1 }

/-- An entry is live: its deadline equals its scope's
`_registered_deadline`. -/
def isLive (scopes : List (Nat × ScopeReg)) (e : HeapEntry) : Bool :=
  match lookupScope e.2 scopes with
  | some r => r.registered = e.1
  | none => false

/-- The pop loop of `Deadlines.expire(now)`: while the top entry has
`deadline ≤ now`, pop it; if it is live, set `did_something` and call
`cancel_scope.cancel()` (which decrements `_active` via
`Deadlines.remove`). -/
def expireLoop (now : DFloat) :
    List HeapEntry → List (Nat × ScopeReg) → Int → Bool →
      List HeapEntry × List (Nat × ScopeReg) × Int × Bool
  | [], scopes, a, did => ([], scopes, a, did)
  | (d, sid) :: rest, scopes, a, did =>
      if d ≤ now then
        match lookupScope sid scopes with
        | some r =>
            if d = r.registered then
              if r.cancel_called then expireLoop now rest scopes a true
              else if r.registered = dInf then
                expireLoop now rest
                  (setScope scopes sid { registered := dInf, cancel_called := true }) a true
              else
                expireLoop now rest
                  (setScope scopes sid { registered := dInf, cancel_called := true })
                  (a - 1) true
            else expireLoop now rest scopes a did
        | none => expireLoop now rest scopes a did
      else ((d, sid) :: rest, scopes, a, did)

/-- The walk of `Deadlines._prune()`: keep an entry iff its deadline
matches the scope's registered deadline and the scope was not already
seen. -/
def pruneWalk (scopes : List (Nat × ScopeReg)) (seen : List Nat) :
    List HeapEntry → List HeapEntry
  | [] => []
  | e :: rest =>
      if isLive scopes e then
        if e.2 ∈ seen then pruneWalk scopes seen rest
        else e :: pruneWalk scopes (e.2 :: seen) rest
      else pruneWalk scopes seen rest

/-- `Deadlines._prune()`: rebuild the heap from the kept entries (already
sorted, so `heapify` is the identity here) and `assert len(pruned_heap) ==
self._active`; a failing assert is `none`. -/
def prune (w : DWorld) : Option DWorld :=
  let pruned := pruneWalk w.scopes [] w.heap
  if (pruned.length : Int) = w.active then some { w with heap := pruned }
  else none

def DEADLINE_HEAP_MIN_PRUNE_THRESHOLD : Int := 1000

/-- `Deadlines.expire(now)`: run the pop loop, then prune if the heap has
accumulated too many stale entries. -/
def expire (now : DFloat) (w : DWorld) : Option (DWorld × Bool) :=
  match expireLoop now w.heap w.scopes w.active false with
  | (h1, sc1, a1, did) =>
      if (h1.length : Int) > a1 * 2 + DEADLINE_HEAP_MIN_PRUNE_THRESHOLD then
        (prune { heap := h1, scopes := sc1, active := a1 }).map (fun w2 => (w2, did))
      else some ({ heap := h1, scopes := sc1, active := a1 }, did)

/-- The registered-deadline protocol invariant: scope identifiers are
unique; `_active` counts the scopes whose registered deadline is finite;
every such scope has a matching (live) entry in the heap; every heap entry
has a finite deadline and an existing scope; and a cancelled scope is
registered at `inf`. -/
def DWorld.Inv (w : DWorld) : Prop :=
  (w.scopes.map Prod.fst).Nodup ∧
  w.active = ((w.scopes.filter (fun p => p.2.registered ≠ dInf)).length : Int) ∧
  (∀ p ∈ w.scopes, p.2.registered ≠ dInf → (p.2.registered, p.1) ∈ w.heap) ∧
  (∀ e ∈ w.heap, e.1 ≠ dInf ∧ (lookupScope e.2 w.scopes).isSome = true) ∧
  (∀ p ∈ w.scopes, p.2.cancel_called = true → p.2.registered = dInf)

theorem mem_insertEntry (e a : HeapEntry) (l : List HeapEntry) :
    a ∈ insertEntry e l ↔ a = e ∨ a ∈ l := by
  induction l with
  | nil => simp [insertEntry]
  | cons x xs ih =>
      simp only [insertEntry]
      split
      · simp [List.mem_cons]
      · simp only [List.mem_cons, ih]
        tauto

theorem keys_setScope (l : List (Nat × ScopeReg)) (sid : Nat) (v : ScopeReg) :
    (setScope l sid v).map Prod.fst = l.map Prod.fst := by
  simp only [setScope, List.map_map]
  apply List.map_congr_left
  intro p hp
  simp only [Function.comp_apply]
  split
  · next h => exact h.symm
  · rfl

theorem lookupScope_mem {sid : Nat} {r : ScopeReg} {l : List (Nat × ScopeReg)}
    (h : lookupScope sid l = some r) : (sid, r) ∈ l := by
  induction l with
  | nil => simp [lookupScope] at h
  | cons p rest ih =>
      obtain ⟨k, v⟩ := p
      simp only [lookupScope] at h
      split at h
      · next hk =>
          simp only [Option.some.injEq] at h
          subst h
          subst hk
          exact List.mem_cons_self _ _
      · exact List.mem_cons_of_mem _ (ih h)

theorem lookupScope_isSome_iff {sid : Nat} {l : List (Nat × ScopeReg)} :
    (lookupScope sid l).isSome = true ↔ sid ∈ l.map Prod.fst := by
  induction l with
  | nil => simp [lookupScope]
  | cons p rest ih =>
      obtain ⟨k, v⟩ := p
      simp only [lookupScope, List.map_cons, List.mem_cons]
      split
      · next hk => simp [hk]
      · next hk => simpa [Ne.symm hk] using ih

theorem lookupScope_of_mem {sid : Nat} {r : ScopeReg} {l : List (Nat × ScopeReg)}
    (hnd : (l.map Prod.fst).Nodup) (h : (sid, r) ∈ l) :
    lookupScope sid l = some r := by
  induction l with
  | nil => simp at h
  | cons p rest ih =>
      obtain ⟨k, v⟩ := p
      simp only [List.map_cons, List.nodup_cons] at hnd
      rcases List.mem_cons.mp h with h1 | h1
      · simp only [Prod.mk.injEq] at h1
        obtain ⟨rfl, rfl⟩ := h1
        simp [lookupScope]
      · have hk : ¬ k = sid := by
          intro he
          subst he
          exact hnd.1 (by simpa using List.mem_map_of_mem Prod.fst h1)
        simp only [lookupScope, if_neg hk]
        exact ih hnd.2 h1

theorem setScope_eq_self {l : List (Nat × ScopeReg)} {sid : Nat} {v : ScopeReg}
    (h : ∀ q ∈ l, q.1 ≠ sid) : setScope l sid v = l := by
  induction l with
  | nil => rfl
  | cons q qs ih =>
      simp only [setScope, List.map_cons]
      rw [if_neg (h q (List.mem_cons_self _ _))]
      have ih2 := ih (fun q2 hq2 => h q2 (List.mem_cons_of_mem _ hq2))
      simp only [setScope] at ih2
      rw [ih2]

theorem lookupScope_setScope_other {sid sid2 : Nat} {v : ScopeReg}
    (l : List (Nat × ScopeReg)) (hne : ¬ sid2 = sid) :
    lookupScope sid2 (setScope l sid v) = lookupScope sid2 l := by
  induction l with
  | nil => rfl
  | cons p rest ih =>
      obtain ⟨k, v2⟩ := p
      simp only [setScope, List.map_cons] at ih ⊢
      by_cases hk : k = sid
      · rw [if_pos hk]
        subst hk
        have hne2 : ¬ k = sid2 := fun h => hne h.symm
        simp only [lookupScope, if_neg hne2]
        exact ih
      · rw [if_neg hk]
        simp only [lookupScope]
        by_cases hk2 : k = sid2
        · rw [if_pos hk2, if_pos hk2]
        · rw [if_neg hk2, if_neg hk2]
          exact ih

theorem mem_setScope {p : Nat × ScopeReg} {l : List (Nat × ScopeReg)}
    {sid : Nat} {v : ScopeReg} (h : p ∈ setScope l sid v) :
    p = (sid, v) ∨ (p ∈ l ∧ ¬ p.1 = sid) := by
  simp only [setScope, List.mem_map] at h
  obtain ⟨q, hq, hpq⟩ := h
  by_cases hqs : q.1 = sid
  · left
    rw [if_pos hqs] at hpq
    exact hpq.symm
  · right
    rw [if_neg hqs] at hpq
    subst hpq
    exact ⟨hq, hqs⟩

/-- Overwriting one scope's state shifts the count of finitely-registered
scopes by the difference of the old and new states. -/
theorem activeCount_setScope {l : List (Nat × ScopeReg)} {sid : Nat}
    {r : ScopeReg} (v : ScopeReg) (hnd : (l.map Prod.fst).Nodup)
    (h : lookupScope sid l = some r) :
    (((setScope l sid v).filter (fun p => p.2.registered ≠ dInf)).length : Int) =
      ((l.filter (fun p => p.2.registered ≠ dInf)).length : Int) +
        (if v.registered ≠ dInf then 1 else 0) -
        (if r.registered ≠ dInf then 1 else 0) := by
  induction l with
  | nil => simp [lookupScope] at h
  | cons p rest ih =>
      obtain ⟨k, u⟩ := p
      simp only [List.map_cons, List.nodup_cons] at hnd
      simp only [lookupScope] at h
      simp only [setScope, List.map_cons] at ih ⊢
      by_cases hk : k = sid
      · rw [if_pos hk] at h ⊢
        simp only [Option.some.injEq] at h
        subst h
        subst hk
        have hrest : List.map (fun p => if p.1 = k then (k, v) else p) rest = rest := by
          have h2 : ∀ q ∈ rest, q.1 ≠ k := by
            intro q hq he
            exact hnd.1 (he ▸ List.mem_map_of_mem Prod.fst hq)
          have := @setScope_eq_self rest k v h2
          simpa [setScope] using this
        rw [hrest]
        simp only [List.filter_cons]
        split_ifs <;> simp_all
      · rw [if_neg hk] at h ⊢
        have ih2 := ih hnd.2 h
        simp only [List.filter_cons]
        split_ifs <;> simp_all

/-- Every entry kept by the prune walk is a live entry of the original
heap. -/
theorem pruneWalk_mem {scopes : List (Nat × ScopeReg)} :
    ∀ {seen : List Nat} {l : List HeapEntry} {e : HeapEntry},
      e ∈ pruneWalk scopes seen l → isLive scopes e = true ∧ e ∈ l := by
  intro seen l
  induction l generalizing seen with
  | nil => intro e he; simp [pruneWalk] at he
  | cons x xs ih =>
      intro e he
      simp only [pruneWalk] at he
      split at he
      · next hlive =>
          split at he
          · obtain ⟨h1, h2⟩ := ih he
            exact ⟨h1, List.mem_cons_of_mem _ h2⟩
          · rcases List.mem_cons.mp he with h1 | h1
            · subst h1
              exact ⟨hlive, List.mem_cons_self _ _⟩
            · obtain ⟨h2, h3⟩ := ih h1
              exact ⟨h2, List.mem_cons_of_mem _ h3⟩
      · obtain ⟨h1, h2⟩ := ih he
        exact ⟨h1, List.mem_cons_of_mem _ h2⟩

/-- The scope identifiers kept by the prune walk: exactly the scopes that
have a live entry in the walked list and were not already seen. -/
theorem pruneWalk_snd_mem {scopes : List (Nat × ScopeReg)} :
    ∀ {seen : List Nat} {l : List HeapEntry} {sid : Nat},
      sid ∈ (pruneWalk scopes seen l).map Prod.snd ↔
        sid ∉ seen ∧ ∃ d, (d, sid) ∈ l ∧ isLive scopes (d, sid) = true := by
  intro seen l
  induction l generalizing seen with
  | nil => intro sid; simp [pruneWalk]
  | cons x xs ih =>
      intro sid
      obtain ⟨d0, s0⟩ := x
      simp only [pruneWalk]
      split
      · next hlive =>
          split
          · next hseen =>
              rw [ih]
              constructor
              · rintro ⟨hs, d, hd, hl⟩
                exact ⟨hs, d, List.mem_cons_of_mem _ hd, hl⟩
              · rintro ⟨hs, d, hd, hl⟩
                rcases List.mem_cons.mp hd with h1 | h1
                · simp only [Prod.mk.injEq] at h1
                  obtain ⟨rfl, rfl⟩ := h1
                  exact absurd hseen hs
                · exact ⟨hs, d, h1, hl⟩
          · next hseen =>
              simp only [List.map_cons, List.mem_cons, ih]
              constructor
              · rintro (rfl | ⟨hs, d, hd, hl⟩)
                · exact ⟨hseen, d0, Or.inl rfl, hlive⟩
                · push_neg at hs
                  exact ⟨hs.2, d, Or.inr hd, hl⟩
              · rintro ⟨hs, d, hd, hl⟩
                by_cases hss : sid = s0
                · exact Or.inl hss
                · right
                  refine ⟨?_, d, ?_, hl⟩
                  · push_neg
                    exact ⟨hss, hs⟩
                  · rcases hd with h1 | h1
                    · simp only [Prod.mk.injEq] at h1
                      exact absurd h1.2 hss
                    · exact h1
      · next hlive =>
          rw [ih]
          constructor
          · rintro ⟨hs, d, hd, hl⟩
            exact ⟨hs, d, List.mem_cons_of_mem _ hd, hl⟩
          · rintro ⟨hs, d, hd, hl⟩
            rcases List.mem_cons.mp hd with h1 | h1
            · simp only [Prod.mk.injEq] at h1
              obtain ⟨rfl, rfl⟩ := h1
              exact absurd hl (by simpa using hlive)
            · exact ⟨hs, d, h1, hl⟩

/-- The prune walk keeps at most one entry per scope. -/
theorem pruneWalk_snd_nodup {scopes : List (Nat × ScopeReg)} :
    ∀ {seen : List Nat} {l : List HeapEntry},
      ((pruneWalk scopes seen l).map Prod.snd).Nodup := by
  intro seen l
  induction l generalizing seen with
  | nil => simp [pruneWalk]
  | cons x xs ih =>
      simp only [pruneWalk]
      split
      · split
        · exact ih
        · simp only [List.map_cons, List.nodup_cons]
          refine ⟨fun hmem => ?_, ih⟩
          rw [pruneWalk_snd_mem] at hmem
          exact hmem.1 (List.mem_cons_self _ _)
      · exact ih

/-- Under the protocol invariant, the scopes with a live heap entry are
exactly the finitely-registered scopes. -/
theorem live_mem_iff {w : DWorld} (hInv : w.Inv) (sid : Nat) :
    sid ∈ (pruneWalk w.scopes [] w.heap).map Prod.snd ↔
      sid ∈ (w.scopes.filter (fun p => p.2.registered ≠ dInf)).map Prod.fst := by
  obtain ⟨hnd, hcount, hwit, hheap, hcc⟩ := hInv
  rw [pruneWalk_snd_mem]
  constructor
  · rintro ⟨-, d, hd, hl⟩
    simp only [isLive] at hl
    split at hl
    · next r hr =>
        have hreg : r.registered = d := by simpa using hl
        have hdni : d ≠ dInf := (hheap (d, sid) hd).1
        have hmem : (sid, r) ∈ w.scopes := lookupScope_mem hr
        refine List.mem_map.mpr ⟨(sid, r), ?_, rfl⟩
        refine List.mem_filter.mpr ⟨hmem, ?_⟩
        simp [hreg, hdni]
    · simp at hl
  · intro hm
    obtain ⟨p, hp, hfst⟩ := List.mem_map.mp hm
    obtain ⟨hps, hpred⟩ := List.mem_filter.mp hp
    have hpreg : p.2.registered ≠ dInf := by simpa using hpred
    obtain ⟨k, r⟩ := p
    subst hfst
    have hlook : lookupScope k w.scopes = some r := lookupScope_of_mem hnd hps
    refine ⟨by simp, r.registered, hwit (k, r) hps hpreg, ?_⟩
    simp [isLive, hlook]

/-- Under the protocol invariant, the prune walk keeps exactly `_active`
entries: the `assert len(pruned_heap) == self._active` holds. -/
theorem pruneWalk_length {w : DWorld} (hInv : w.Inv) :
    ((pruneWalk w.scopes [] w.heap).length : Int) = w.active := by
  have hknd : ((pruneWalk w.scopes [] w.heap).map Prod.snd).Nodup :=
    pruneWalk_snd_nodup
  have hmnd : ((w.scopes.filter (fun p => p.2.registered ≠ dInf)).map
      Prod.fst).Nodup :=
    List.Nodup.sublist (List.Sublist.map _ (List.filter_sublist _)) hInv.1
  have hfin : ((pruneWalk w.scopes [] w.heap).map Prod.snd).toFinset =
      ((w.scopes.filter (fun p => p.2.registered ≠ dInf)).map
        Prod.fst).toFinset := by
    apply Finset.ext
    intro sid
    rw [List.mem_toFinset, List.mem_toFinset]
    exact live_mem_iff hInv sid
  have hlen : ((pruneWalk w.scopes [] w.heap).map Prod.snd).length =
      ((w.scopes.filter (fun p => p.2.registered ≠ dInf)).map
        Prod.fst).length := by
    rw [← List.toFinset_card_of_nodup hknd, ← List.toFinset_card_of_nodup hmnd,
      hfin]
  have h1 : (pruneWalk w.scopes [] w.heap).length =
      (w.scopes.filter (fun p => p.2.registered ≠ dInf)).length := by
    simpa using hlen
  rw [h1, ← hInv.2.1]

/-- Under the protocol invariant, `_prune()` succeeds (the assert passes)
and re-establishes the invariant. -/
theorem prune_inv {w : DWorld} (hInv : w.Inv) :
    prune w = some { w with heap := pruneWalk w.scopes [] w.heap } ∧
      DWorld.Inv { w with heap := pruneWalk w.scopes [] w.heap } := by
  obtain ⟨hnd, hcount, hwit, hheap, hcc⟩ := hInv
  constructor
  · simp [prune, pruneWalk_length ⟨hnd, hcount, hwit, hheap, hcc⟩]
  · refine ⟨hnd, hcount, ?_, ?_, hcc⟩
    · intro p hp hpreg
      have hm : p.1 ∈ (pruneWalk w.scopes [] w.heap).map Prod.snd := by
        rw [live_mem_iff ⟨hnd, hcount, hwit, hheap, hcc⟩]
        refine List.mem_map.mpr ⟨p, List.mem_filter.mpr ⟨hp, by simpa using hpreg⟩, rfl⟩
      obtain ⟨e, he, hsnd⟩ := List.mem_map.mp hm
      obtain ⟨hlive, hel⟩ := pruneWalk_mem he
      simp only [isLive] at hlive
      split at hlive
      · next r hr =>
          have hreg : r.registered = e.1 := by simpa using hlive
          have : lookupScope e.2 w.scopes = some p.2 := by
            rw [hsnd]
            exact lookupScope_of_mem hnd (by simpa using hp)
          rw [this] at hr
          obtain rfl : p.2 = r := by simpa using hr
          have he2 : e = (p.2.registered, p.1) := by
            obtain ⟨e1, e2⟩ := e
            simp only [Prod.mk.injEq]
            exact ⟨by simpa using hreg.symm, hsnd⟩
          rwa [← he2]
      · simp at hlive
    · intro e he
      exact hheap e (pruneWalk_mem he).2

/-- The pop loop of `expire` preserves the protocol invariant. -/
theorem expireLoop_inv (now : DFloat) :
    ∀ (h : List HeapEntry) (scopes : List (Nat × ScopeReg)) (a : Int)
      (did : Bool) (h1 : List HeapEntry) (sc1 : List (Nat × ScopeReg))
      (a1 : Int) (did1 : Bool),
      expireLoop now h scopes a did = (h1, sc1, a1, did1) →
      DWorld.Inv ⟨h, scopes, a⟩ → DWorld.Inv ⟨h1, sc1, a1⟩ := by
  intro h
  induction h with
  | nil =>
      intro scopes a did h1 sc1 a1 did1 heq hInv
      simp only [expireLoop, Prod.mk.injEq] at heq
      obtain ⟨rfl, rfl, rfl, rfl⟩ := heq
      exact hInv
  | cons x rest ih =>
      obtain ⟨d, sid⟩ := x
      intro scopes a did h1 sc1 a1 did1 heq hInv
      obtain ⟨hnd, hcount, hwit, hheap, hcc⟩ := hInv
      simp only [expireLoop] at heq
      split at heq
      · split at heq
        · next r hr =>
            split at heq
            · next hdr =>
                split at heq
                · next hrcc =>
                    exfalso
                    have hdinf : r.registered = dInf :=
                      hcc (sid, r) (lookupScope_mem hr) hrcc
                    have hne : d ≠ dInf :=
                      (hheap (d, sid) (List.mem_cons_self _ _)).1
                    exact hne (by simpa using hdr.trans hdinf)
                · split at heq
                  · next hrinf =>
                      exfalso
                      have hne : d ≠ dInf :=
                        (hheap (d, sid) (List.mem_cons_self _ _)).1
                      exact hne (by simpa using hdr.trans hrinf)
                  · next hrinf =>
                      apply ih _ _ _ _ _ _ _ heq
                      have hrne : r.registered ≠ dInf := hrinf
                      refine ⟨?_, ?_, ?_, ?_, ?_⟩
                      · simpa [keys_setScope] using hnd
                      · have hasc := @activeCount_setScope scopes sid r
                          { registered := dInf, cancel_called := true } hnd hr
                        simp only [ne_eq, not_true_eq_false, if_false,
                          if_neg (by simp : ¬ dInf ≠ dInf)] at hasc
                        rw [if_pos hrne] at hasc
                        simp only [ne_eq] at hasc hcount ⊢
                        omega
                      · intro p hp hpreg
                        rcases mem_setScope hp with h2 | ⟨h2, h3⟩
                        · exfalso
                          subst h2
                          simp at hpreg
                        · have := hwit p h2 hpreg
                          rcases List.mem_cons.mp this with h4 | h4
                          · exfalso
                            have : p.1 = sid := by
                              simpa using congrArg Prod.snd h4
                            exact h3 this
                          · exact h4
                      · intro e he
                        have h5 := hheap e (List.mem_cons_of_mem _ he)
                        refine ⟨h5.1, ?_⟩
                        rw [lookupScope_isSome_iff, keys_setScope]
                        rw [lookupScope_isSome_iff] at h5
                        exact h5.2
                      · intro p hp hpcc
                        rcases mem_setScope hp with h2 | ⟨h2, h3⟩
                        · subst h2
                          rfl
                        · exact hcc p h2 hpcc
            · next hdr =>
                apply ih _ _ _ _ _ _ _ heq
                refine ⟨hnd, hcount, ?_, ?_, hcc⟩
                · intro p hp hpreg
                  have := hwit p hp hpreg
                  rcases List.mem_cons.mp this with h4 | h4
                  · exfalso
                    have hfst : p.2.registered = d := by
                      simpa using congrArg Prod.fst h4
                    have hsnd : p.1 = sid := by
                      simpa using congrArg Prod.snd h4
                    have : lookupScope sid scopes = some p.2 := by
                      rw [← hsnd]
                      exact lookupScope_of_mem hnd (by simpa using hp)
                    rw [hr] at this
                    obtain rfl : r = p.2 := by simpa using this
                    exact hdr (hfst.symm)
                  · exact h4
                · intro e he
                  exact hheap e (List.mem_cons_of_mem _ he)
        · next hr =>
            exfalso
            have h5 := (hheap (d, sid) (List.mem_cons_self _ _)).2
            rw [hr] at h5
            simp at h5
      · simp only [Prod.mk.injEq] at heq
        obtain ⟨rfl, rfl, rfl, rfl⟩ := heq
        exact ⟨hnd, hcount, hwit, hheap, hcc⟩

/-- Creating a fresh scope preserves the protocol invariant. -/
theorem newScope_inv {w : DWorld} (sid : Nat) (hInv : w.Inv)
    (hfresh : ∀ p ∈ w.scopes, p.1 ≠ sid) : (newScope sid w).Inv := by
  obtain ⟨hnd, hcount, hwit, hheap, hcc⟩ := hInv
  refine ⟨?_, ?_, ?_, ?_, ?_⟩
  · simp only [newScope, List.map_append, List.map_cons, List.map_nil]
    refine List.Nodup.append hnd (List.nodup_singleton sid) ?_
    intro a ha hb
    simp only [List.mem_singleton] at hb
    subst hb
    obtain ⟨p, hp, hp2⟩ := List.mem_map.mp ha
    exact hfresh p hp hp2
  · simp only [newScope, List.filter_append]
    have hone : List.filter (fun p => decide (p.2.registered ≠ dInf))
        ([(sid, { registered := dInf, cancel_called := false })] :
          List (Nat × ScopeReg)) = [] := by
      simp
    simp only [ne_eq] at hone ⊢
    simp only [hone, List.append_nil]
    exact hcount
  · intro p hp hpreg
    simp only [newScope, List.mem_append, List.mem_singleton] at hp
    rcases hp with hp | hp
    · exact hwit p hp hpreg
    · exfalso
      subst hp
      simp at hpreg
  · intro e he
    refine ⟨(hheap e he).1, ?_⟩
    rw [lookupScope_isSome_iff]
    simp only [newScope, List.map_append, List.mem_append]
    left
    rw [← lookupScope_isSome_iff]
    exact (hheap e he).2
  · intro p hp hpcc
    simp only [newScope, List.mem_append, List.mem_singleton] at hp
    rcases hp with hp | hp
    · exact hcc p hp hpcc
    · subst hp
      simp at hpcc

/-- `_might_change_registered_deadline` (non-cancel mutations) preserves
the protocol invariant. -/
theorem updateDeadline_inv {w : DWorld} (sid : Nat) (proposed : DFloat)
    (hInv : w.Inv) : (updateDeadline sid proposed w).Inv := by
  obtain ⟨hnd, hcount, hwit, hheap, hcc⟩ := hInv
  simp only [updateDeadline]
  split
  · exact ⟨hnd, hcount, hwit, hheap, hcc⟩
  · next r hr =>
      by_cases hccb : r.cancel_called = true
      · rw [if_pos hccb]
        split
        · exact ⟨hnd, hcount, hwit, hheap, hcc⟩
        · next hne =>
            exfalso
            exact hne (hcc (sid, r) (lookupScope_mem hr) hccb)
      · rw [if_neg hccb]
        split
        · exact ⟨hnd, hcount, hwit, hheap, hcc⟩
        · next hne =>
            split
            · next hnew =>
                refine ⟨?_, ?_, ?_, ?_, ?_⟩
                · simpa [keys_setScope] using hnd
                · have hasc := @activeCount_setScope w.scopes sid r
                    { registered := proposed, cancel_called := r.cancel_called }
                    hnd hr
                  simp only [ne_eq] at hasc hcount ⊢
                  rw [if_pos (by simpa using hnew)] at hasc
                  by_cases hreg : r.registered = dInf
                  · rw [if_neg (by simpa using hreg)] at hasc
                    rw [if_neg (fun h2 => h2 hreg)]
                    omega
                  · rw [if_pos (by simpa using hreg)] at hasc
                    rw [if_pos (by simpa using hreg)]
                    omega
                · intro p hp hpreg
                  rcases mem_setScope hp with h2 | ⟨h2, h3⟩
                  · subst h2
                    rw [mem_insertEntry]
                    left
                    rfl
                  · rw [mem_insertEntry]
                    right
                    exact hwit p h2 hpreg
                · intro e he
                  rw [mem_insertEntry] at he
                  rcases he with he | he
                  · subst he
                    refine ⟨by simpa using hnew, ?_⟩
                    rw [lookupScope_isSome_iff, keys_setScope,
                      ← lookupScope_isSome_iff]
                    simp [hr]
                  · refine ⟨(hheap e he).1, ?_⟩
                    rw [lookupScope_isSome_iff, keys_setScope,
                      ← lookupScope_isSome_iff]
                    exact (hheap e he).2
                · intro p hp hpcc
                  rcases mem_setScope hp with h2 | ⟨h2, h3⟩
                  · exfalso
                    subst h2
                    exact hccb (by simpa using hpcc)
                  · exact hcc p h2 hpcc
            · next hnew =>
                have hprop : proposed = dInf := by
                  by_contra h2
                  exact hnew h2
                subst hprop
                have hreg : ¬ r.registered = dInf := hne
                rw [if_pos (by simpa using hreg)]
                refine ⟨?_, ?_, ?_, ?_, ?_⟩
                · simpa [keys_setScope] using hnd
                · have hasc := @activeCount_setScope w.scopes sid r
                    { registered := dInf, cancel_called := r.cancel_called }
                    hnd hr
                  simp only [ne_eq] at hasc hcount ⊢
                  rw [if_neg (by simp), if_pos (by simpa using hreg)] at hasc
                  omega
                · intro p hp hpreg
                  rcases mem_setScope hp with h2 | ⟨h2, h3⟩
                  · exfalso
                    subst h2
                    simp at hpreg
                  · exact hwit p h2 hpreg
                · intro e he
                  refine ⟨(hheap e he).1, ?_⟩
                  rw [lookupScope_isSome_iff, keys_setScope,
                    ← lookupScope_isSome_iff]
                  exact (hheap e he).2
                · intro p hp hpcc
                  rcases mem_setScope hp with h2 | ⟨h2, h3⟩
                  · subst h2
                    rfl
                  · exact hcc p h2 hpcc

/-- `CancelScope.cancel()` preserves the protocol invariant. -/
theorem cancelScope_inv {w : DWorld} (sid : Nat) (hInv : w.Inv) :
    (cancelScope sid w).Inv := by
  obtain ⟨hnd, hcount, hwit, hheap, hcc⟩ := hInv
  simp only [cancelScope]
  split
  · exact ⟨hnd, hcount, hwit, hheap, hcc⟩
  · next r hr =>
      split
      · exact ⟨hnd, hcount, hwit, hheap, hcc⟩
      · next hrcc =>
          have hkeys : ((setScope w.scopes sid
              { registered := dInf, cancel_called := true }).map Prod.fst).Nodup := by
            simpa [keys_setScope] using hnd
          have hwit2 : ∀ p ∈ setScope w.scopes sid
              { registered := dInf, cancel_called := true },
              p.2.registered ≠ dInf → (p.2.registered, p.1) ∈ w.heap := by
            intro p hp hpreg
            rcases mem_setScope hp with h2 | ⟨h2, h3⟩
            · exfalso
              subst h2
              simp at hpreg
            · exact hwit p h2 hpreg
          have hheap2 : ∀ e ∈ w.heap, e.1 ≠ dInf ∧
              (lookupScope e.2 (setScope w.scopes sid
                { registered := dInf, cancel_called := true })).isSome = true := by
            intro e he
            refine ⟨(hheap e he).1, ?_⟩
            rw [lookupScope_isSome_iff, keys_setScope,
              ← lookupScope_isSome_iff]
            exact (hheap e he).2
          have hcc2 : ∀ p ∈ setScope w.scopes sid
              { registered := dInf, cancel_called := true },
              p.2.cancel_called = true → p.2.registered = dInf := by
            intro p hp hpcc
            rcases mem_setScope hp with h2 | ⟨h2, h3⟩
            · subst h2
              rfl
            · exact hcc p h2 hpcc
          split
          · next hreg =>
              refine ⟨hkeys, ?_, hwit2, hheap2, hcc2⟩
              have hasc := @activeCount_setScope w.scopes sid r
                { registered := dInf, cancel_called := true } hnd hr
              simp only [ne_eq] at hasc hcount ⊢
              rw [if_neg (by simp), if_neg (by simpa using hreg)] at hasc
              omega
          · next hreg =>
              refine ⟨hkeys, ?_, hwit2, hheap2, hcc2⟩
              have hasc := @activeCount_setScope w.scopes sid r
                { registered := dInf, cancel_called := true } hnd hr
              simp only [ne_eq] at hasc hcount ⊢
              rw [if_neg (by simp), if_pos (by simpa using hreg)] at hasc
              omega

/-- Under the protocol invariant, `expire` never hits the failing assert
in `_prune()` and preserves the invariant. -/
theorem expire_inv {w : DWorld} (now : DFloat) (hInv : w.Inv) :
    ∃ w1 did, expire now w = some (w1, did) ∧ w1.Inv := by
  obtain ⟨hh, hs, ha⟩ := w
  rcases hloop : expireLoop now hh hs ha false with ⟨h1, sc1, a1, did1⟩
  have hInv1 : DWorld.Inv ⟨h1, sc1, a1⟩ :=
    expireLoop_inv now hh hs ha false h1 sc1 a1 did1 hloop hInv
  simp only [expire, hloop]
  split
  · obtain ⟨hp, hpi⟩ := prune_inv hInv1
    rw [hp]
    exact ⟨_, did1, rfl, hpi⟩
  · exact ⟨⟨h1, sc1, a1⟩, did1, rfl, hInv1⟩

/-- C6: under the registered-deadline protocol (scopes created fresh,
every deadline change going through `_might_change_registered_deadline`,
cancels through `cancel()`), the protocol invariant holds initially and is
preserved by every operation; whenever `expire` triggers compaction, the
assert `len(pruned_heap) == self._active` in `_prune()` holds, so `expire`
always returns (the assert is unreachable as a failure). -/
theorem deadlines_prune_assert :
    DWorld.Inv DWorld.init ∧
    (∀ sid w, DWorld.Inv w → (∀ p ∈ w.scopes, p.1 ≠ sid) →
      DWorld.Inv (newScope sid w)) ∧
    (∀ sid proposed w, DWorld.Inv w →
      DWorld.Inv (updateDeadline sid proposed w)) ∧
    (∀ sid w, DWorld.Inv w → DWorld.Inv (cancelScope sid w)) ∧
    (∀ w, DWorld.Inv w →
      ((pruneWalk w.scopes [] w.heap).length : Int) = w.active) ∧
    (∀ now w, DWorld.Inv w →
      ∃ w1 did, expire now w = some (w1, did) ∧ DWorld.Inv w1) := by
  refine ⟨?_, ?_, ?_, ?_, ?_, ?_⟩
  · refine ⟨List.nodup_nil, by simp [DWorld.init], ?_, ?_, ?_⟩ <;>
      intro p hp <;> simp [DWorld.init] at hp
  · intro sid w hInv hfresh
    exact newScope_inv sid hInv hfresh
  · intro sid proposed w hInv
    exact updateDeadline_inv sid proposed hInv
  · intro sid w hInv
    exact cancelScope_inv sid hInv
  · intro w hInv
    exact pruneWalk_length hInv
  · intro now w hInv
    exact expire_inv now hInv

/-- Witness for C6: a concrete protocol run — create scope 1, register
deadline 5, then expire at time 9 — stays within the invariant and
`expire` returns successfully. -/
theorem deadlines_prune_assert_witness :
    DWorld.Inv (updateDeadline 1 (dFin 5) (newScope 1 DWorld.init)) ∧
    (expire (dFin 9)
      (updateDeadline 1 (dFin 5) (newScope 1 DWorld.init))).isSome = true := by
  have h := deadlines_prune_assert
  have h0 : DWorld.Inv DWorld.init := h.1
  have h1 : DWorld.Inv (newScope 1 DWorld.init) :=
    h.2.1 1 DWorld.init h0 (by simp [DWorld.init])
  have h2 : DWorld.Inv (updateDeadline 1 (dFin 5) (newScope 1 DWorld.init)) :=
    h.2.2.1 1 (dFin 5) _ h1
  obtain ⟨w1, did, heq, hInv1⟩ := h.2.2.2.2.2 (dFin 9) _ h2
  exact ⟨h2, by simp [heq]⟩

theorem lookupScope_setScope_self {sid : Nat} {r : ScopeReg} (v : ScopeReg)
    {l : List (Nat × ScopeReg)} (h : lookupScope sid l = some r) :
    lookupScope sid (setScope l sid v) = some v := by
  induction l with
  | nil => simp [lookupScope] at h
  | cons p rest ih =>
      obtain ⟨k, u⟩ := p
      simp only [lookupScope] at h
      simp only [setScope, List.map_cons]
      by_cases hk : k = sid
      · rw [if_pos hk]
        simp [lookupScope]
      · rw [if_neg hk] at h ⊢
        simp only [lookupScope, if_neg hk]
        have h2 := ih h
        simpa [setScope] using h2

theorem lookup_cancelScope_self {sid : Nat} {dw : DWorld} {r : ScopeReg}
    (hr : lookupScope sid dw.scopes = some r) (hcc : ¬ r.cancel_called = true) :
    lookupScope sid (cancelScope sid dw).scopes =
      some { registered := dInf, cancel_called := true } := by
  simp only [cancelScope, hr]
  rw [if_neg hcc]
  split
  · exact lookupScope_setScope_self _ hr
  · exact lookupScope_setScope_self _ hr

/-! ## CancelScope.cancel (`trio/_core/_run.py`) -/

/-- One `CancelScope` together with the shared state it touches: its own
`_deadline`, the shared `Deadlines` container (which also stores this
scope's `_registered_deadline` / `_cancel_called` under `sid`), and its
`CancelStatus` subtree while active (`none` when `_cancel_status is
None`). -/
structure ScopeWorld where
  sid : Nat
  deadline : DFloat
  dw : DWorld
  status : Option CTree
deriving DecidableEq

/-- `CancelScope.cancel()`: return immediately if `_cancel_called`;
otherwise set it (re-registering the deadline as `inf` inside
`_might_change_registered_deadline`, via `cancelScope`) and, if the scope
is active, recalculate its status subtree (whose root scope data also
flips `cancel_called`).  `pe` is the stored flag of the subtree's parent
status. -/
def scopeCancel (pe : Option Bool) (w : ScopeWorld) : ScopeWorld :=
  match lookupScope w.sid w.dw.scopes with
  | none => w
  | some r =>
      if r.cancel_called then w
      else
        { w with dw := cancelScope w.sid w.dw,
                 status := w.status.map
                   (fun t => recalculate pe (setCancelCalled t)) }

/-- The `deadline` setter: store the new deadline and re-register through
`_might_change_registered_deadline` (proposing `inf` when the scope is not
active; `updateDeadline` itself proposes `inf` when cancelled). -/
def scopeSetDeadline (nd : DFloat) (w : ScopeWorld) : ScopeWorld :=
  { w with deadline := nd,
           dw := updateDeadline w.sid
             (if w.status.isSome then nd else dInf) w.dw }

/-- C7: `CancelScope.cancel()` is idempotent — a second call is the
identity on every observable (the scope record, the registered deadline
and the cancel-status tree) — `cancel_called` is true after any cancel and
stays true (a later `cancel()` is a no-op and the deadline setter
preserves it), and cancelling registers the deadline `inf`. -/
theorem cancel_idempotent (pe : Option Bool) (w : ScopeWorld) :
    scopeCancel pe (scopeCancel pe w) = scopeCancel pe w ∧
    (∀ r, lookupScope w.sid w.dw.scopes = some r → r.cancel_called = false →
      lookupScope w.sid (scopeCancel pe w).dw.scopes =
        some { registered := dInf, cancel_called := true }) ∧
    (∀ r, lookupScope w.sid w.dw.scopes = some r → r.cancel_called = true →
      scopeCancel pe w = w) ∧
    (∀ nd r, lookupScope w.sid w.dw.scopes = some r → r.cancel_called = true →
      ∃ r1, lookupScope w.sid (scopeSetDeadline nd w).dw.scopes = some r1 ∧
        r1.cancel_called = true) := by
  refine ⟨?_, ?_, ?_, ?_⟩
  · rcases hr : lookupScope w.sid w.dw.scopes with - | r
    · have h1 : scopeCancel pe w = w := by
        simp [scopeCancel, hr]
      rw [h1, h1]
    · by_cases hcc : r.cancel_called = true
      · have h1 : scopeCancel pe w = w := by
          simp [scopeCancel, hr, hcc]
        rw [h1, h1]
      · have h1 : scopeCancel pe w =
            { w with dw := cancelScope w.sid w.dw,
                     status := w.status.map
                       (fun t => recalculate pe (setCancelCalled t)) } := by
          simp [scopeCancel, hr, hcc]
        rw [h1]
        have h2 : lookupScope w.sid (cancelScope w.sid w.dw).scopes =
            some { registered := dInf, cancel_called := true } :=
          lookup_cancelScope_self hr hcc
        simp [scopeCancel, h2]
  · intro r hr hcc
    have h1 : scopeCancel pe w =
        { w with dw := cancelScope w.sid w.dw,
                 status := w.status.map
                   (fun t => recalculate pe (setCancelCalled t)) } := by
      simp [scopeCancel, hr, hcc]
    rw [h1]
    exact lookup_cancelScope_self hr (by simp [hcc])
  · intro r hr hcc
    simp [scopeCancel, hr, hcc]
  · intro nd r hr hcc
    simp only [scopeSetDeadline, updateDeadline, hr]
    rw [if_pos hcc]
    split
    · exact ⟨r, hr, hcc⟩
    · refine ⟨{ registered := dInf, cancel_called := r.cancel_called }, ?_, hcc⟩
      rw [if_neg (by simp)]
      exact lookupScope_setScope_self _ hr

/-- Witness for C7: a concrete active cancelled-for-the-first-time scope —
the registered deadline becomes `inf` and a second `cancel()` is the
identity. -/
theorem cancel_idempotent_witness :
    lookupScope 1 (scopeCancel (some false)
      { sid := 1, deadline := dFin 5,
        dw := { heap := [(dFin 5, 1)],
                scopes := [(1, { registered := dFin 5, cancel_called := false })],
                active := 1 },
        status := some (.node ⟨false, false, dFin 5⟩ false false [7] .nil) }).dw.scopes =
      some { registered := dInf, cancel_called := true } := by
  exact (cancel_idempotent (some false)
    { sid := 1, deadline := dFin 5,
      dw := { heap := [(dFin 5, 1)],
              scopes := [(1, { registered := dFin 5, cancel_called := false })],
              active := 1 },
      status := some (.node ⟨false, false, dFin 5⟩ false false [7] .nil) }).2.1
    { registered := dFin 5, cancel_called := false } rfl rfl

end Trio
